import Mathlib

/-!
# Verification of the ETA frame-interval and object/schema core

This file gives a shallow embedding, in Lean 4, of the core data model of
the ETA video-annotation toolkit (`eta/core/frames.py` and
`eta/core/objects.py`) and proves or refutes the spec's claims about it.

Conventions of the embedding:

* Python machine integers are unbounded, so integers are modelled as `ℤ`
  (frame numbers) or `ℕ` where the code only ever sees naturals.
* Python floats appearing in the timestamp arithmetic are modelled as `ℚ`;
  on every input mentioned in the claims the float computation is exact,
  and Python 3 `round` (round-half-to-even) is modelled exactly.
* Code that can raise is modelled as `Except Err`; each `Err` constructor
  corresponds to one Python exception class.
* Stateful iteration cursors (`_idx`, `_started`, `_frame`) are not
  modelled: every claim below is about the interval structure, and every
  operation involved either ignores the cursor or only resets it.
* Python `dict`s are modelled as insertion-ordered association lists,
  Python `set`s of strings as lists (with set-semantics where it matters).
-/

namespace Eta

/-- Python exception classes that the embedded code can raise. -/
inductive Err : Type where
  /-- `FrameRangeError` (the spec's `InvalidInterval`). -/
  | frameRangeErr : Err
  /-- `FrameRangesError` (the spec's `IntervalSetError`). -/
  | frameRangesErr : Err
  /-- `ValueError` (raised by `Object.add_detection`; the spec's
  `MissingFrameNumber`). -/
  | valueErr : Err
  /-- `AttributeError` (raised by Python on access to an attribute that an
  object does not define). -/
  | attributeErr : Err
  /-- `ObjectSchemaError` (a `SchemaError` subtype). -/
  | objectSchemaErr : Err
  /-- `ObjectContainerSchemaError` (a `SchemaError` subtype). -/
  | containerSchemaErr : Err
  /-- `AttributeContainerSchemaError` (a `SchemaError` subtype, from the
  external `eta.core.data` collaborator). -/
  | attrSchemaErr : Err
deriving DecidableEq, Repr

/-! ## `eta.core.frames`: timestamp conversion -/

/-- Python 3 `round` on an exact value: round half to even. -/
def pyRound (q : ℚ) : ℤ :=
  let f : ℤ := ⌊q⌋
  let r : ℚ := q - f
  if r < 1/2 then f
  else if 1/2 < r then f + 1
  else if Even f then f else f + 1

/-- `frame_number_to_timestamp(frame_number, total_frame_count, duration)`. -/
def frameNumberToTimestamp (frameNumber : ℚ) (totalFrameCount : ℤ)
    (duration : ℚ) : ℚ :=
  if totalFrameCount = 1 then 0
  else (frameNumber - 1) / ((totalFrameCount : ℚ) - 1) * duration

/-- `timestamp_to_frame_number(timestamp, duration, total_frame_count)` for a
numeric timestamp: `alpha = timestamp / duration`;
`1 + int(round(alpha * (total_frame_count - 1)))`. -/
def timestampToFrameNumber (timestamp duration : ℚ)
    (totalFrameCount : ℤ) : ℤ :=
  let alpha := timestamp / duration
  1 + pyRound (alpha * ((totalFrameCount : ℚ) - 1))

/-! ## `eta.core.frames`: `FrameRange` (the spec's Interval) -/

/-- `FrameRange`: an inclusive, 1-based integer interval.  The traversal
cursor `_frame` is not modelled (see the module docstring). -/
structure FrameRange where
  first : ℤ
  last : ℤ
deriving DecidableEq, Repr

namespace FrameRange

/-- `FrameRange._validate_range`. -/
def validateRange (first last : ℤ) : Except Err Unit :=
  if first < 1 then .error .frameRangeErr
  else if last < first then .error .frameRangeErr
  else .ok ()

/-- `FrameRange.__init__`: stores the endpoints, then validates them. -/
def make (first last : ℤ) : Except Err FrameRange :=
  match validateRange first last with
  | .error e => .error e
  | .ok _ => .ok ⟨first, last⟩

/-- `FrameRange.limits`. -/
def limits (fr : FrameRange) : ℤ × ℤ := (fr.first, fr.last)

/-- The list `[a, a+1, ..., b]` (`list(range(a, b + 1))`). -/
def intervalList (a b : ℤ) : List ℤ :=
  (List.range (b + 1 - a).toNat).map (fun (i : ℕ) => a + (i : ℤ))

/-- `FrameRange.to_list`: `list(range(first, last + 1))`. -/
def toList (fr : FrameRange) : List ℤ :=
  intervalList fr.first fr.last

/-- The decimal digit character for `d ∈ [0, 9]`. -/
def digitChar (d : ℕ) : Char := Char.ofNat (48 + d)

/-- Decimal rendering of a natural number (`"%d"`), most significant digit
first. -/
def natToChars (n : ℕ) : List Char :=
  if n = 0 then ['0'] else ((Nat.digits 10 n).reverse).map digitChar

/-- Decimal rendering of an integer (`"%d"`). -/
def intToChars (i : ℤ) : List Char :=
  if i < 0 then '-' :: natToChars i.natAbs else natToChars i.toNat

/-- `FrameRange.to_human_str`: `"first"` when the range is a single frame,
else `"first-last"`.  Strings are modelled as lists of characters. -/
def toHumanStr (fr : FrameRange) : List Char :=
  if fr.first = fr.last then intToChars fr.first
  else intToChars fr.first ++ '-' :: intToChars fr.last

/-- The value of a decimal digit character, if it is one. -/
def charDigit (c : Char) : Option ℕ :=
  if 48 ≤ c.toNat ∧ c.toNat ≤ 57 then some (c.toNat - 48) else none

/-- Python `int(token)` on an unsigned token: all characters must be decimal
digits and the token must be non-empty; `none` models `ValueError`. -/
def parseNat (cs : List Char) : Option ℕ :=
  if cs.isEmpty then none
  else cs.foldlM (fun acc c => (charDigit c).map (fun d => 10 * acc + d)) 0

/-- Python `int(token)`: an optional leading minus sign, then digits. -/
def parseInt (cs : List Char) : Option ℤ :=
  match cs with
  | c :: rest =>
    if c = '-' then (parseNat rest).map (fun n => -(n : ℤ))
    else (parseNat (c :: rest)).map (fun n => (n : ℤ))
  | [] => none

/-- `frames_str.split("-")`: split on every dash, keeping empty parts. -/
def splitOnDash : List Char → List (List Char)
  | [] => [[]]
  | c :: rest =>
    if c = '-' then [] :: splitOnDash rest
    else
      match splitOnDash rest with
      | t :: ts => (c :: t) :: ts
      | [] => [[c]]

/-- `FrameRange.from_human_str`: split on `"-"`, parse every token as an
integer (`int` raising `ValueError` is caught and re-raised as
`FrameRangeError`), then construct `FrameRange(v[0], v[-1])` (whose own
validation error propagates uncaught).  The `some []` case cannot occur:
`split` always returns at least one token. -/
def fromHumanStr (cs : List Char) : Except Err FrameRange :=
  match (splitOnDash cs).mapM parseInt with
  | none => .error .frameRangeErr
  | some [] => .error .frameRangeErr
  | some (v0 :: vs) => make v0 (vs.getLastD v0)

end FrameRange

/-! ## `eta.core.frames`: `FrameRanges` (the spec's Interval Set) -/

/-- `FrameRanges`: an ordered series of `FrameRange`s.  The traversal cursor
(`_idx`, `_started`) is not modelled (see the module docstring). -/
structure FrameRanges where
  ranges : List FrameRange
deriving DecidableEq, Repr

namespace FrameRanges

/-- `FrameRanges.limits`: `(None, None)` when empty, else the first frame of
the first range and the last frame of the last range. -/
def limits (s : FrameRanges) : Option ℤ × Option ℤ :=
  match s.ranges.head?, s.ranges.getLast? with
  | some r0, some r1 => (some r0.first, some r1.last)
  | _, _ => (none, none)

/-- `self.limits[1]`, as used by `_ingest_range`. -/
def limitsEnd (s : FrameRanges) : Option ℤ :=
  (s.ranges.getLast?).map (fun r => r.last)

/-- `FrameRanges._ingest_range`: fails with `FrameRangesError` when the new
first frame is `≤` the current overall last frame; otherwise constructs the
`FrameRange` (which validates it) and appends it. -/
def ingestRange (s : FrameRanges) (newRange : ℤ × ℤ) : Except Err FrameRanges :=
  match s.limitsEnd with
  | some e =>
    if newRange.1 ≤ e then .error .frameRangesErr
    else
      match FrameRange.make newRange.1 newRange.2 with
      | .error err => .error err
      | .ok fr => .ok ⟨s.ranges ++ [fr]⟩
  | none =>
    match FrameRange.make newRange.1 newRange.2 with
    | .error err => .error err
    | .ok fr => .ok ⟨s.ranges ++ [fr]⟩

/-- `FrameRanges.add_range`: delegates to `_ingest_range`. -/
def addRange (s : FrameRanges) (newRange : ℤ × ℤ) : Except Err FrameRanges :=
  s.ingestRange newRange

/-- `FrameRanges.__init__` applied to a list of `(first, last)` tuples:
ingests each tuple in order, starting from the empty instance. -/
def fromTuples (l : List (ℤ × ℤ)) : Except Err FrameRanges :=
  List.foldlM ingestRange ⟨[]⟩ l

/-- `FrameRanges.to_list`: the concatenation of the lists of the ranges. -/
def toList (s : FrameRanges) : List ℤ :=
  s.ranges.flatMap FrameRange.toList

/-- `FrameRanges.to_bools(total_frame_count)`: a 0-indexed boolean mask of
the given size; `bools[idx]` is set exactly when frame `idx + 1` is in the
set and `idx + 1 ≤ total_frame_count` (for the 1-based frames of a valid
instance, `i - 1` is a valid non-negative index). -/
def toBools (s : FrameRanges) (totalFrameCount : ℤ) : List Bool :=
  (List.range totalFrameCount.toNat).map
    (fun (j : ℕ) => decide (((j : ℤ) + 1) ∈ s.toList))

/-- `1 + np.flatnonzero(bools)`: the 1-based positions of the `true`
entries, in increasing order. -/
def trueFrames (bools : List Bool) : List ℤ :=
  ((List.range bools.length).filter (fun j => bools.getD j false)).map
    (fun (j : ℕ) => (j : ℤ) + 1)

/-- The grouping loop of `_iterable_to_ranges` after sorting: a value that
extends the current run by one bumps the running `last`; any other value
closes the current run and starts a new one. -/
def groupRuns (first last : ℤ) : List ℤ → List (ℤ × ℤ)
  | [] => [(first, last)]
  | v :: rest =>
    if v = last + 1 then groupRuns first (last + 1) rest
    else (first, last) :: groupRuns v v rest

/-- `_iterable_to_ranges(vals)`: sort the values, then group them into
maximal consecutive runs in a single left-to-right scan. -/
def iterableToRanges (vals : List ℤ) : List (ℤ × ℤ) :=
  match List.insertionSort (· ≤ ·) vals with
  | [] => []
  | v :: rest => groupRuns v v rest

/-- `FrameRanges.from_iterable(frames)`:
`FrameRanges(ranges=_iterable_to_ranges(frames))`. -/
def fromIterable (frames : List ℤ) : Except Err FrameRanges :=
  fromTuples (iterableToRanges frames)

/-- `FrameRanges.from_bools(bools)`:
`from_iterable(1 + np.flatnonzero(bools))`. -/
def fromBools (bools : List Bool) : Except Err FrameRanges :=
  fromIterable (trueFrames bools)

/-- The merge pass of `FrameRanges.simplify`: `cur` is the running
`last_range`, the `FrameRange`s still to process follow.  Returns the list of
merged `(first, last)` tuples (`new_ranges`) and the `did_something` flag.
Mirrors the loop body: a range whose `first ≤ (running last) + 1` only
updates the running last; any other range starts a new running range. -/
def mergePass (cur : ℤ × ℤ) : List FrameRange → List (ℤ × ℤ) × Bool
  | [] => ([cur], false)
  | r :: rest =>
    if r.first ≤ cur.2 + 1 then
      let res := mergePass (cur.1, r.last) rest
      (res.1, true)
    else
      let res := mergePass (r.first, r.last) rest
      (cur :: res.1, res.2)

/-- `FrameRanges.simplify`: no-op on an empty instance; otherwise runs the
merge pass over the ranges; if nothing merged, only the cursor is reset (not
modelled) and the ranges are unchanged; otherwise the instance is cleared and
each merged tuple is re-added via `add_range`. -/
def simplify (s : FrameRanges) : Except Err FrameRanges :=
  match s.ranges with
  | [] => .ok s
  | r0 :: rest =>
    let res := mergePass (r0.first, r0.last) rest
    if res.2 then fromTuples res.1 else .ok s

/-- The class invariant of `FrameRanges` stated by the spec: every range is a
valid interval and the ranges are strictly increasing and disjoint. -/
def Valid (s : FrameRanges) : Prop :=
  (∀ r ∈ s.ranges, 1 ≤ r.first ∧ r.first ≤ r.last) ∧
    s.ranges.Chain' (fun a b => a.last < b.first)

instance (s : FrameRanges) : Decidable s.Valid :=
  inferInstanceAs (Decidable
    ((∀ r ∈ s.ranges, 1 ≤ r.first ∧ r.first ≤ r.last) ∧
      s.ranges.Chain' (fun (a b : FrameRange) => a.last < b.first)))

end FrameRanges

/-! ## External collaborator `eta.core.data` (spec-modelled)

`AttributeContainer` and `AttributeContainerSchema` live in `eta.core.data`,
which is not part of this repository's sources; the spec declares them
external collaborators.  They are modelled from the spec's words here. -/

/-- Modelled from the spec: `Attribute` from the external `eta.core.data` —
"name, type tag, value, optional confidence — treated as an opaque record".
Values are opaque strings; the optional confidence plays no role in any
claim.  An `AttributeContainer` is a `List Attr`: "containers of attributes
preserve insertion order and allow duplicates by name". -/
structure Attr where
  name : String
  atype : String
  value : String
deriving DecidableEq, Repr

/-- Modelled from the spec: the per-attribute schema held by an
`AttributeContainerSchema` — the declared type tag and the accumulated set
of allowed values. -/
structure AttrSchemaEntry where
  atype : String
  values : List String
deriving DecidableEq, Repr

/-- Modelled from the spec: `AttributeContainerSchema` from the external
`eta.core.data` — a mapping from declared attribute names to per-attribute
schemas.  "Schemas accumulate declared attribute names/types/allowed-values
monotonically under `add_*` — re-adding an already-declared name/value is a
no-op, never an error"; validation raises on "attribute not declared" and
"attribute value/type not permitted". -/
structure AttrContainerSchema where
  schema : List (String × AttrSchemaEntry)
deriving DecidableEq, Repr

namespace AttrContainerSchema

/-- The empty attribute schema. -/
def empty : AttrContainerSchema := ⟨[]⟩

/-- First entry declared under `name`, if any. -/
def lookup (s : AttrContainerSchema) (name : String) : Option AttrSchemaEntry :=
  (s.schema.find? (fun e => e.1 = name)).map Prod.snd

/-- Add an allowed value to a value set (a no-op when already present). -/
def insertValue (vs : List String) (v : String) : List String :=
  if v ∈ vs then vs else vs ++ [v]

/-- Replace the entry of an existing name in place, else append. -/
def setEntry : List (String × AttrSchemaEntry) → String → AttrSchemaEntry →
    List (String × AttrSchemaEntry)
  | [], n, e => [(n, e)]
  | (n', e') :: rest, n, e =>
    if n' = n then (n, e) :: rest else (n', e') :: setEntry rest n e

/-- Modelled from the spec: `add_attribute` — declare the attribute's name,
type and value; a no-op on a re-add, an error on a type conflict. -/
def addAttribute (s : AttrContainerSchema) (attr : Attr) :
    Except Err AttrContainerSchema :=
  match s.lookup attr.name with
  | none => .ok ⟨s.schema ++ [(attr.name, ⟨attr.atype, [attr.value]⟩)]⟩
  | some e =>
    if e.atype ≠ attr.atype then .error .attrSchemaErr
    else .ok ⟨setEntry s.schema attr.name ⟨e.atype, insertValue e.values attr.value⟩⟩

/-- Modelled from the spec: `add_attributes` — fold `add_attribute` over the
container. -/
def addAttributes (s : AttrContainerSchema) (attrs : List Attr) :
    Except Err AttrContainerSchema :=
  attrs.foldlM addAttribute s

/-- Modelled from the spec: `validate_attribute` — the name must be
declared, with the same type, and the value must be permitted. -/
def validateAttribute (s : AttrContainerSchema) (attr : Attr) : Except Err Unit :=
  match s.lookup attr.name with
  | none => .error .attrSchemaErr
  | some e =>
    if e.atype ≠ attr.atype then .error .attrSchemaErr
    else if attr.value ∈ e.values then .ok () else .error .attrSchemaErr

/-- Modelled from the spec: `validate` — validate every attribute of the
container, surfacing the first failure. -/
def validate (s : AttrContainerSchema) (attrs : List Attr) : Except Err Unit :=
  attrs.foldlM (fun _ attr => s.validateAttribute attr) ()

/-- One step of `merge_schema`: merge another schema's entry `p` into the
accumulated schema — a new name is appended; a shared name must keep its
type and unions the allowed values. -/
def mergeStep (acc : AttrContainerSchema) (p : String × AttrSchemaEntry) :
    Except Err AttrContainerSchema :=
  match acc.lookup p.1 with
  | none => .ok ⟨acc.schema ++ [p]⟩
  | some e =>
    if e.atype ≠ p.2.atype then .error .attrSchemaErr
    else .ok ⟨setEntry acc.schema p.1 ⟨e.atype, p.2.values.foldl insertValue e.values⟩⟩

/-- Modelled from the spec: `merge_schema` — union of the declared names;
for a shared name the types must agree and the value sets are unioned. -/
def mergeSchema (a b : AttrContainerSchema) : Except Err AttrContainerSchema :=
  b.schema.foldlM mergeStep a

end AttrContainerSchema

/-! ## `eta.core.objects`: detection entities -/

/-- `DetectedObject` — the fields the claims touch; the geometry fields
(`bounding_box`, `mask`, `top_k_probs`, `score`, ...) are opaque to every
claim and omitted.  Note that `DetectedObject` defines NO `frames`
attribute; `ObjectSchema._add_detected_object` reads `dobj.frames` anyway
(see `Eta.ObjectSchema.addDetectedObject`). -/
structure DetectedObject where
  label : Option String
  confidence : Option ℚ
  index : Option ℤ
  frameNumber : Option ℤ
  attrs : List Attr
deriving DecidableEq, Repr

/-- `Object` — a spatiotemporal entity.  `supportExplicit` is the private
`_support` field; `frames` is the Python dict mapping frame numbers to
`DetectedObject`s (insertion-ordered); `child_objects` is a set of uuid
strings. -/
structure Object where
  label : Option String
  confidence : Option ℚ
  supportExplicit : Option FrameRanges
  index : Option ℤ
  uuid : Option String
  attrs : List Attr
  frames : List (ℤ × DetectedObject)
  childObjects : List String
deriving DecidableEq, Repr

/-- Python dict update `frames[k] = v` on an insertion-ordered association
list: replaces the value of an existing key in place, else appends. -/
def assocSet : List (ℤ × DetectedObject) → ℤ → DetectedObject →
    List (ℤ × DetectedObject)
  | [], k, v => [(k, v)]
  | (k', v') :: rest, k, v =>
    if k' = k then (k, v) :: rest else (k', v') :: assocSet rest k v

namespace Object

/-- `Object.support`: the explicit `_support` when one was given, else
`FrameRanges.from_iterable(self.frames.keys())`. -/
def support (o : Object) : Except Err FrameRanges :=
  match o.supportExplicit with
  | some s => .ok s
  | none => FrameRanges.fromIterable (o.frames.map Prod.fst)

/-- `Object.add_detection(obj, frame_number=None)`: an explicit frame number
overwrites the detection's own; with neither present a `ValueError` (the
spec's `MissingFrameNumber`) is raised; the stored detection's `label` is
always cleared to `None`. -/
def addDetection (o : Object) (dobj : DetectedObject)
    (frameNumber : Option ℤ) : Except Err Object :=
  match frameNumber with
  | some fn =>
    let d := { dobj with frameNumber := some fn, label := none }
    .ok { o with frames := assocSet o.frames fn d }
  | none =>
    match dobj.frameNumber with
    | none => .error .valueErr
    | some fn =>
      let d := { dobj with label := none }
      .ok { o with frames := assocSet o.frames fn d }

end Object

/-! ## `eta.core.objects`: `ObjectContainer` -/

/-- `ObjectContainer`: an ordered container of `Object`s. -/
structure ObjectContainer where
  objects : List Object
deriving DecidableEq, Repr

namespace ObjectContainer

/-- `ObjectContainer.iter_objects(label)`: every object whose label matches
(`"*"` matches any label). -/
def iterObjects (c : ObjectContainer) (label : String) : List Object :=
  c.objects.filter (fun o => label = "*" || o.label = some label)

/-- `ObjectContainer.iter_detected_objects(label)`: for each matching
object, iterates `obj.child_objects` — the SET OF UUID STRINGS — and yields
its elements (not the `DetectedObject` values of `obj.frames`). -/
def iterDetectedObjects (c : ObjectContainer) (label : String) : List String :=
  (c.iterObjects label).flatMap (fun o => o.childObjects)

/-- `ObjectContainer.iter_detected_object_attrs`: iterates
`iter_detected_objects` and evaluates `detobj.attrs` on each yielded
element; the elements are uuid strings, and a `str` has no `attrs`
attribute, so the first yielded element raises `AttributeError`; with no
yielded element the generator is empty. -/
def iterDetectedObjectAttrs (c : ObjectContainer) (label : String) :
    Except Err (List (String × Attr)) :=
  match c.iterDetectedObjects label with
  | [] => .ok []
  | _ :: _ => .error .attributeErr

end ObjectContainer

/-! ## `eta.core.objects`: the schema layer -/

/-- `ObjectSchema`: the object label (possibly `None`), the object-level and
frame-level attribute schemasions, and the nested child-object container
schema — `ObjectContainerSchema` is a mapping from labels to `ObjectSchema`s,
represented by its insertion-ordered entry list. -/
inductive ObjectSchema : Type where
  | mk : Option String → AttrContainerSchema → AttrContainerSchema →
      List (Option String × ObjectSchema) → ObjectSchema

namespace ObjectSchema

def label : ObjectSchema → Option String
  | mk l _ _ _ => l

def attrs : ObjectSchema → AttrContainerSchema
  | mk _ a _ _ => a

def frames : ObjectSchema → AttrContainerSchema
  | mk _ _ f _ => f

def childObjects : ObjectSchema → List (Option String × ObjectSchema)
  | mk _ _ _ c => c

/-- `ObjectSchema(label)`: a fresh schema with empty attribute schemas and
no child objects. -/
def emptySchema (label : Option String) : ObjectSchema :=
  mk label AttrContainerSchema.empty AttrContainerSchema.empty []

/-- `ObjectSchema.validate_label`: raises `ObjectSchemaError` unless the
label equals the schema's label. -/
def validateLabel (s : ObjectSchema) (label : Option String) : Except Err Unit :=
  if label ≠ s.label then .error .objectSchemaErr else .ok ()

/-- `self.add_frame_attributes(obj.frames)` as called by
`ObjectSchema._add_object`: the argument is the `frames` DICT, not an
`AttributeContainer`; iterating a dict yields its integer keys, and
`add_attribute` then reads `attr.name` on an `int`, raising
`AttributeError`.  With an empty dict nothing is iterated and the schema is
unchanged. -/
def addFrameAttrsOfFramesDict (s : AttrContainerSchema)
    (framesDict : List (ℤ × DetectedObject)) : Except Err AttrContainerSchema :=
  match framesDict with
  | [] => .ok s
  | _ :: _ => .error .attributeErr

/-- `ObjectSchema._add_detected_object(dobj, validate_label)`: validates the
label when asked, adds `dobj.attrs` to the OBJECT-level attribute schema,
then evaluates `dobj.frames` — `DetectedObject` defines no `frames`
attribute, so this attribute access raises `AttributeError`
unconditionally. -/
def addDetectedObject (s : ObjectSchema) (dobj : DetectedObject)
    (validateLabelFlag : Bool) : Except Err ObjectSchema :=
  match (if validateLabelFlag then s.validateLabel dobj.label else .ok ()) with
  | .error e => .error e
  | .ok _ =>
    match s.attrs.addAttributes dobj.attrs with
    | .error e => .error e
    | .ok _ => .error .attributeErr

/-- `ObjectSchema._add_object(obj)`: validates the label, adds `obj.attrs`
to the object-level schema, calls `add_frame_attributes(obj.frames)` (see
`addFrameAttrsOfFramesDict`), then folds `_add_detected_object` with
`validate_label=False` over the detections. -/
def addObjectO (s : ObjectSchema) (obj : Object) : Except Err ObjectSchema :=
  match s.validateLabel obj.label with
  | .error e => .error e
  | .ok _ =>
    match s.attrs.addAttributes obj.attrs with
    | .error e => .error e
    | .ok a =>
      match addFrameAttrsOfFramesDict s.frames obj.frames with
      | .error e => .error e
      | .ok f =>
        (obj.frames.map Prod.snd).foldlM
          (fun acc dobj => acc.addDetectedObject dobj false)
          (mk s.label a f s.childObjects)

/-- `ObjectSchema._validate_detected_object(dobj, validate_label)`:
validates the label when asked, then validates `dobj.attrs` against the
FRAME-level attribute schema. -/
def validateDetectedObject (s : ObjectSchema) (dobj : DetectedObject)
    (validateLabelFlag : Bool) : Except Err Unit :=
  match (if validateLabelFlag then s.validateLabel dobj.label else .ok ()) with
  | .error e => .error e
  | .ok _ => s.frames.validate dobj.attrs

/-- `ObjectSchema._validate_object(obj)`: validates the label, the
object-level attributes, then every detection (label check bypassed). -/
def validateObjectO (s : ObjectSchema) (obj : Object) : Except Err Unit :=
  match s.validateLabel obj.label with
  | .error e => .error e
  | .ok _ =>
    match s.attrs.validate obj.attrs with
    | .error e => .error e
    | .ok _ =>
      (obj.frames.map Prod.snd).foldlM
        (fun _ dobj => s.validateDetectedObject dobj false) ()

/-- `ObjectSchema.build_active_schema(obj)` for an `Object` (the default
`objects=None` skips the child-object branch): a fresh `ObjectSchema` for
`obj.label`, then `add_object(obj)` (which dispatches to `_add_object`). -/
def buildActiveSchema (obj : Object) : Except Err ObjectSchema :=
  (emptySchema obj.label).addObjectO obj

/-- `ObjectSchema.build_active_schema(dobj)` for a `DetectedObject`
(`add_object` dispatches to `_add_detected_object`). -/
def buildActiveSchemaDetected (dobj : DetectedObject) : Except Err ObjectSchema :=
  (emptySchema dobj.label).addDetectedObject dobj true

end ObjectSchema

/-! ## `eta.core.objects`: `ObjectContainerSchema` and `merge_schema` -/

/-- First schema stored under `label`, if any. -/
def lookupLabel (m : List (Option String × ObjectSchema))
    (label : Option String) : Option ObjectSchema :=
  (m.find? (fun p => p.1 = label)).map Prod.snd

/-- Python dict update on a label → schema map: replace in place or
append. -/
def setLabel : List (Option String × ObjectSchema) → Option String →
    ObjectSchema → List (Option String × ObjectSchema)
  | [], l, v => [(l, v)]
  | (l', v') :: rest, l, v =>
    if l' = l then (l, v) :: rest else (l', v') :: setLabel rest l v

mutual

/-- `ObjectSchema.merge_schema(schema)`: `validate_label(schema.label)`
(raising on a mismatch), then merge the object-level and frame-level
attribute schemas and recursively merge the child-object container
schemas. -/
def mergeOS (a : ObjectSchema) : ObjectSchema → Except Err ObjectSchema
  | ObjectSchema.mk blabel battrs bframes bchildren =>
    if blabel ≠ a.label then .error .objectSchemaErr
    else
      match a.attrs.mergeSchema battrs with
      | .error e => .error e
      | .ok na =>
        match a.frames.mergeSchema bframes with
        | .error e => .error e
        | .ok nf =>
          match mergeChildren a.childObjects bchildren with
          | .error e => .error e
          | .ok nc => .ok (ObjectSchema.mk a.label na nf nc)

/-- `ObjectContainerSchema.merge_schema(schema)` over the raw label → schema
maps: for each entry of the other schema, `_ensure_has_object_label`
(inserting a fresh `ObjectSchema(label)` when absent), then merge the entry
into the stored schema. -/
def mergeChildren (a : List (Option String × ObjectSchema)) :
    List (Option String × ObjectSchema) →
    Except Err (List (Option String × ObjectSchema))
  | [] => .ok a
  | (label, bos) :: rest =>
    let base :=
      match lookupLabel a label with
      | some aos => aos
      | none => ObjectSchema.emptySchema label
    match mergeOS base bos with
    | .error e => .error e
    | .ok merged => mergeChildren (setLabel a label merged) rest

end

/-- `ObjectContainerSchema`: a mapping from object labels to
`ObjectSchema`s. -/
structure ObjectContainerSchema where
  schema : List (Option String × ObjectSchema)

/-- `ObjectContainerSchema.merge_schema`. -/
def ObjectContainerSchema.mergeSchema (a b : ObjectContainerSchema) :
    Except Err ObjectContainerSchema :=
  match mergeChildren a.schema b.schema with
  | .error e => .error e
  | .ok m => .ok ⟨m⟩

/-! ## Declaration-set view of the schema layer

Schemas are compared as Python compares them: as unordered mappings.  A
schema is flattened into the set of facts it declares — child labels,
attribute names/types, allowed values — each tagged with the path of child
labels leading to it; two schemas are "equal" when they declare the same
facts. -/

/-- One declaration contained in a schema: a declared child label (the path
ends at it), a declared attribute (name and type), or an allowed attribute
value; attributes and values record whether they are frame-level. -/
inductive SchemaDecl : Type where
  | labelDecl : List (Option String) → SchemaDecl
  | attrDecl : List (Option String) → Bool → String → String → SchemaDecl
  | valueDecl : List (Option String) → Bool → String → String → SchemaDecl
deriving DecidableEq, Repr

namespace SchemaDecl

/-- Prefix a declaration's path with a child label. -/
def push (l : Option String) : SchemaDecl → SchemaDecl
  | labelDecl p => labelDecl (l :: p)
  | attrDecl p fl n t => attrDecl (l :: p) fl n t
  | valueDecl p fl n v => valueDecl (l :: p) fl n v

/-- Two declarations conflict exactly when they declare different types for
the same attribute. -/
def compatible : SchemaDecl → SchemaDecl → Bool
  | attrDecl p₁ f₁ n₁ t₁, attrDecl p₂ f₂ n₂ t₂ =>
    decide ((p₁, f₁, n₁) = (p₂, f₂, n₂) → t₁ = t₂)
  | _, _ => true

end SchemaDecl

/-- The declarations of an attribute schema (`fl` marks frame-level). -/
def AttrContainerSchema.decls (fl : Bool) (s : AttrContainerSchema) :
    List SchemaDecl :=
  s.schema.flatMap (fun p =>
    SchemaDecl.attrDecl [] fl p.1 p.2.atype ::
      p.2.values.map (fun v => SchemaDecl.valueDecl [] fl p.1 v))

mutual

/-- All declarations of an `ObjectSchema`, relative to itself. -/
def declsOS : ObjectSchema → List SchemaDecl
  | .mk _ a f ch =>
    AttrContainerSchema.decls false a ++ AttrContainerSchema.decls true f ++
      declsOCS ch

/-- All declarations of a label → schema map: each entry declares its label
and, prefixed with it, every declaration of its schema. -/
def declsOCS : List (Option String × ObjectSchema) → List SchemaDecl
  | [] => []
  | (l, c) :: rest =>
    (SchemaDecl.labelDecl [l] :: (declsOS c).map (SchemaDecl.push l)) ++
      declsOCS rest

end

/-- Well-formedness of an attribute schema: each name declared at most
once. -/
def wfACS (s : AttrContainerSchema) : Bool :=
  decide (s.schema.map Prod.fst).Nodup

mutual

/-- Well-formedness of an `ObjectSchema`: well-formed attribute schemas and
a well-formed child map. -/
def wfOS : ObjectSchema → Bool
  | .mk _ a f ch => wfACS a && wfACS f && wfOCS ch

/-- Well-formedness of a label → schema map: every entry is keyed by its
schema's own label, keys are unique, and entries are recursively
well-formed. -/
def wfOCS : List (Option String × ObjectSchema) → Bool
  | [] => true
  | (l, c) :: rest =>
    decide (c.label = l) && wfOS c &&
      rest.all (fun p => decide (p.1 ≠ l)) && wfOCS rest

end

/-- Pairwise conflict-freedom of a combined declaration set (the claims'
"compatible per-label schemas"). -/
def declsCompatible (ds : List SchemaDecl) : Bool :=
  ds.all (fun d₁ => ds.all (fun d₂ => SchemaDecl.compatible d₁ d₂))

/-- Concrete example container schema (one `"car"` label whose object-level
schema allows `color = "red"`), used to witness the merge properties. -/
def exampleOCS₁ : ObjectContainerSchema :=
  ⟨[(some "car",
    ObjectSchema.mk (some "car") ⟨[("color", ⟨"categorical", ["red"]⟩)]⟩
      ⟨[]⟩ [])]⟩

/-- A second example container schema for the same `"car"` label, allowing
`color = "blue"`. -/
def exampleOCS₂ : ObjectContainerSchema :=
  ⟨[(some "car",
    ObjectSchema.mk (some "car") ⟨[("color", ⟨"categorical", ["blue"]⟩)]⟩
      ⟨[]⟩ [])]⟩

/-- A third example container schema, for a fresh `"person"` label with a
frame-level attribute. -/
def exampleOCS₃ : ObjectContainerSchema :=
  ⟨[(some "person",
    ObjectSchema.mk (some "person") ⟨[]⟩
      ⟨[("pose", ⟨"categorical", ["standing"]⟩)]⟩ [])]⟩

end Eta

/-! ### Claims C2 -/

/-- C2, as stated by the spec, is false on the code: Python 3 `round` rounds
half to even, so `timestamp_to_frame_number(4.5, 9.0, 10)` is
`1 + round(0.5 * 9) = 1 + round(4.5) = 1 + 4 = 5`, not `6`. -/
theorem C2_timestamp_to_frame_number_counterexample :
    Eta.timestampToFrameNumber (9/2) 9 10 = 5 ∧
      ¬ Eta.timestampToFrameNumber (9/2) 9 10 = 6 := by
  norm_num [Eta.timestampToFrameNumber, Eta.pyRound, Int.even_iff]

/-- C2 amended: `timestamp_to_frame_number(timestamp, duration,
total_frame_count)` returns `1 + round((timestamp/duration) *
(total_frame_count - 1))` where `round` is Python 3 rounding
(half-to-even); in particular `timestamp_to_frame_number(4.5, 9.0, 10) = 5`
(the half-way case `round(4.5)` rounds down to the even integer `4`). -/
theorem C2_timestamp_to_frame_number_amended :
    Eta.timestampToFrameNumber (9/2) 9 10 = 5 ∧
      ∀ (timestamp duration : ℚ) (totalFrameCount : ℤ),
        Eta.timestampToFrameNumber timestamp duration totalFrameCount =
          1 + Eta.pyRound (timestamp / duration * ((totalFrameCount : ℚ) - 1)) := by
  refine ⟨?_, fun _ _ _ => rfl⟩
  norm_num [Eta.timestampToFrameNumber, Eta.pyRound, Int.even_iff]

/-! ### Claim C3 -/

/-- C3, as stated, is false on the code: when the interval set is empty (so
no `FrameRangesError` can occur) and the pair is `(0, 0)`, the interval is
not appended silently — `FrameRange.__init__` validates `first >= 1` and
raises `FrameRangeError`. -/
theorem C3_add_range_counterexample :
    Eta.FrameRanges.addRange ⟨[]⟩ (0, 0) = Except.error Eta.Err.frameRangeErr := by
  rfl

/-- C3 amended: `add_range((first, last))` raises `FrameRangesError` exactly
when the set is non-empty and `first ≤` the last frame of its final interval;
otherwise, when the pair is a valid interval (`1 ≤ first ≤ last`) it is
appended with no error, and when it is not, `FrameRangeError` is raised. -/
theorem C3_add_range_amended (s : Eta.FrameRanges) (first last : ℤ) :
    (s.addRange (first, last) = Except.error Eta.Err.frameRangesErr ↔
      ∃ e, s.limitsEnd = some e ∧ first ≤ e) ∧
    ((∀ e, s.limitsEnd = some e → e < first) →
      if 1 ≤ first ∧ first ≤ last then
        s.addRange (first, last) = Except.ok ⟨s.ranges ++ [⟨first, last⟩]⟩
      else
        s.addRange (first, last) = Except.error Eta.Err.frameRangeErr) := by
  unfold Eta.FrameRanges.addRange Eta.FrameRanges.ingestRange
    Eta.FrameRange.make Eta.FrameRange.validateRange
  cases he : s.limitsEnd with
  | none =>
    refine ⟨⟨fun h => ?_, fun ⟨e, he', _⟩ => by simp_all⟩, fun _ => ?_⟩
    · split_ifs at h <;> simp_all
    · split_ifs <;> simp_all <;> omega
  | some e =>
    by_cases hle : first ≤ e
    · refine ⟨?_, fun h => absurd (h e rfl) (by omega)⟩
      simp [hle]
    · simp only [hle, if_false]
      refine ⟨⟨fun h => ?_, fun ⟨e', he', hle'⟩ => ?_⟩, fun _ => ?_⟩
      · split_ifs at h <;> simp_all
      · rw [← Option.some_inj.mp he'] at hle'; exact absurd hle' hle
      · split_ifs <;> simp_all <;> omega

/-- Witness for C3: on the concrete set `{1-3}`, adding `(5, 7)` appends and
adding `(3, 9)` raises `FrameRangesError`. -/
theorem C3_add_range_witness :
    Eta.FrameRanges.addRange ⟨[⟨1, 3⟩]⟩ (5, 7) =
        Except.ok ⟨[⟨1, 3⟩, ⟨5, 7⟩]⟩ ∧
      Eta.FrameRanges.addRange ⟨[⟨1, 3⟩]⟩ (3, 9) =
        Except.error Eta.Err.frameRangesErr := by
  constructor
  · have h := (C3_add_range_amended ⟨[⟨1, 3⟩]⟩ 5 7).2
    have h' := h (by intro e he; simp [Eta.FrameRanges.limitsEnd] at he; omega)
    simpa using h'
  · exact (C3_add_range_amended ⟨[⟨1, 3⟩]⟩ 3 9).1.mpr
      ⟨3, by simp [Eta.FrameRanges.limitsEnd], le_refl 3⟩

/-! ### Helper lemmas about `intervalList` -/

namespace Eta

namespace FrameRange

theorem intervalList_nil {a b : ℤ} (h : b < a) : intervalList a b = [] := by
  unfold intervalList
  have h0 : (b + 1 - a).toNat = 0 := by omega
  simp [h0]

theorem intervalList_cons {a b : ℤ} (h : a ≤ b) :
    intervalList a b = a :: intervalList (a + 1) b := by
  unfold intervalList
  have h1 : (b + 1 - a).toNat = (b + 1 - (a + 1)).toNat + 1 := by omega
  rw [h1, List.range_succ_eq_map, List.map_cons, List.map_map]
  refine congrArg₂ _ (by simp) ?_
  refine List.map_congr_left fun i _ => ?_
  simp only [Function.comp_apply]
  push_cast
  ring

theorem mem_intervalList {a b f : ℤ} : f ∈ intervalList a b ↔ a ≤ f ∧ f ≤ b := by
  unfold intervalList
  simp only [List.mem_map, List.mem_range]
  constructor
  · rintro ⟨i, hi, rfl⟩; omega
  · rintro ⟨h1, h2⟩
    exact ⟨(f - a).toNat, by omega, by omega⟩

theorem intervalList_head {a b : ℤ} (h : a ≤ b) :
    (intervalList a b).head? = some a := by
  rw [intervalList_cons h]; rfl

theorem intervalList_getLast {a b : ℤ} (h : a ≤ b) :
    (intervalList a b).getLast? = some b := by
  obtain ⟨k, hk⟩ : ∃ k, (b - a).toNat = k := ⟨_, rfl⟩
  induction k generalizing a with
  | zero =>
    have hab : a = b := by omega
    subst hab
    rw [intervalList_cons le_rfl, intervalList_nil (by omega)]
    rfl
  | succ n ih =>
    have h1 : a + 1 ≤ b := by omega
    rw [intervalList_cons h, intervalList_cons h1, List.getLast?_cons_cons,
      ← intervalList_cons h1, ih h1 (by omega)]

theorem intervalList_chain {a b : ℤ} : (intervalList a b).Chain' (· < ·) := by
  obtain ⟨k, hk⟩ : ∃ k, (b + 1 - a).toNat = k := ⟨_, rfl⟩
  induction k generalizing a with
  | zero =>
    rw [intervalList_nil (by omega)]
    exact List.chain'_nil
  | succ n ih =>
    have h : a ≤ b := by omega
    rw [intervalList_cons h]
    by_cases h1 : a + 1 ≤ b
    · rw [List.chain'_cons']
      refine ⟨fun y hy => ?_, ih (by omega)⟩
      rw [intervalList_head h1] at hy
      simp only [Option.mem_def, Option.some_inj] at hy
      omega
    · rw [intervalList_nil (by omega)]
      exact List.chain'_singleton a

theorem intervalList_append {a b c : ℤ} (h1 : a ≤ b + 1) (h2 : b ≤ c) :
    intervalList a c = intervalList a b ++ intervalList (b + 1) c := by
  obtain ⟨k, hk⟩ : ∃ k, (b + 1 - a).toNat = k := ⟨_, rfl⟩
  induction k generalizing a with
  | zero =>
    have hab : a = b + 1 := by omega
    subst hab
    rw [show intervalList (b + 1) b = [] from intervalList_nil (by omega),
      List.nil_append]
  | succ n ih =>
    have h : a ≤ b := by omega
    rw [intervalList_cons h, intervalList_cons (by omega : a ≤ c),
      ih (by omega) (by omega), List.cons_append]

end FrameRange

end Eta

/-! ### Helper lemmas about `mergePass`, `fromTuples` and `simplify` -/

namespace Eta

namespace FrameRanges

/-- Full characterisation of one merge pass over a valid list of ranges:
the output starts at the running first frame, consists of valid,
gap-separated tuples, covers exactly the same frames, and is the identity
(up to `limits`) when the `did_something` flag is false. -/
theorem mergePass_spec (rest : List FrameRange) :
    ∀ (cf cl : ℤ), 1 ≤ cf → cf ≤ cl →
      (∀ r ∈ rest, 1 ≤ r.first ∧ r.first ≤ r.last) →
      (FrameRange.mk cf cl :: rest).Chain' (fun a b => a.last < b.first) →
      ((mergePass (cf, cl) rest).1.head?.map Prod.fst = some cf) ∧
      (∀ p ∈ (mergePass (cf, cl) rest).1, 1 ≤ p.1 ∧ p.1 ≤ p.2) ∧
      (mergePass (cf, cl) rest).1.Chain' (fun p q => p.2 + 1 < q.1) ∧
      ((mergePass (cf, cl) rest).1.flatMap
          (fun p => FrameRange.intervalList p.1 p.2) =
        FrameRange.intervalList cf cl ++ rest.flatMap FrameRange.toList) ∧
      ((mergePass (cf, cl) rest).2 = false →
        (mergePass (cf, cl) rest).1 =
          (FrameRange.mk cf cl :: rest).map FrameRange.limits) := by
  induction rest with
  | nil =>
    intro cf cl h1 h2 _ _
    refine ⟨rfl, ?_, ?_, ?_, fun _ => rfl⟩
    · intro p hp
      simp only [mergePass, List.mem_singleton] at hp
      subst hp; exact ⟨h1, h2⟩
    · exact List.chain'_singleton _
    · simp [mergePass, FrameRange.toList]
  | cons r rest ih =>
    intro cf cl h1 h2 hv hch
    rw [List.chain'_cons] at hch
    obtain ⟨hlt, hch'⟩ := hch
    simp only [FrameRange.mk.injEq] at hlt
    have hvr := hv r (List.mem_cons_self r rest)
    have hv' : ∀ x ∈ rest, 1 ≤ x.first ∧ x.first ≤ x.last :=
      fun x hx => hv x (List.mem_cons_of_mem r hx)
    by_cases hif : r.first ≤ cl + 1
    · -- merge: under the chain invariant `cl < r.first`, so `r.first = cl + 1`
      have hfr : r.first = cl + 1 := by omega
      have hch'' : (FrameRange.mk cf r.last :: rest).Chain'
          (fun a b => a.last < b.first) := by
        rw [List.chain'_cons']
        rw [List.chain'_cons'] at hch'
        exact ⟨hch'.1, hch'.2⟩
      obtain ⟨ihh, ihv, ihc, ihf, _⟩ :=
        ih cf r.last h1 (by omega) hv' hch''
      simp only [mergePass, hif, if_true]
      refine ⟨ihh, ihv, ihc, ?_, by simp⟩
      rw [ihf, FrameRange.intervalList_append (a := cf) (b := cl)
        (c := r.last) (by omega) (by omega)]
      simp [FrameRange.toList, hfr, List.append_assoc]
    · -- no merge: emit the running range, restart from `r`
      have hch'' : (r :: rest).Chain' (fun a b => a.last < b.first) := hch'
      obtain ⟨ihh, ihv, ihc, ihf, ihid⟩ :=
        ih r.first r.last hvr.1 hvr.2 hv' hch''
      simp only [mergePass, hif, if_false]
      refine ⟨rfl, ?_, ?_, ?_, ?_⟩
      · intro p hp
        rcases List.mem_cons.mp hp with hp | hp
        · subst hp; exact ⟨h1, h2⟩
        · exact ihv p hp
      · rw [List.chain'_cons']
        refine ⟨fun q hq => ?_, ihc⟩
        rcases hmem : (mergePass (r.first, r.last) rest).1.head? with _ | q0
        · rw [hmem] at hq; cases hq
        · rw [hmem] at hq ihh
          simp at ihh hq
          subst hq
          omega
      · simp only [List.flatMap_cons]
        rw [ihf]
        rfl
      · intro hflag
        rw [List.map_cons]
        exact congrArg _ (ihid hflag)

/-- A merge pass over an already gap-separated list changes nothing and
reports `did_something = false`. -/
theorem mergePass_of_gapSep (rest : List FrameRange) :
    ∀ (cf cl : ℤ),
      (FrameRange.mk cf cl :: rest).Chain' (fun a b => a.last + 1 < b.first) →
      mergePass (cf, cl) rest =
        ((FrameRange.mk cf cl :: rest).map FrameRange.limits, false) := by
  induction rest with
  | nil => intro cf cl _; rfl
  | cons r rest ih =>
    intro cf cl hch
    rw [List.chain'_cons] at hch
    obtain ⟨hlt, hch'⟩ := hch
    simp only at hlt
    have hif : ¬ r.first ≤ cl + 1 := by omega
    simp only [mergePass, hif, if_false, ih r.first r.last hch', List.map_cons]
    rfl

/-- `ingestRange` over a valid, strictly increasing list of tuples, starting
from any state whose current end lies before the first new tuple, succeeds
and appends all the tuples. -/
theorem foldlM_ingestRange (l : List (ℤ × ℤ)) :
    ∀ (s : FrameRanges),
      (∀ p ∈ l, 1 ≤ p.1 ∧ p.1 ≤ p.2) →
      l.Chain' (fun p q => p.2 < q.1) →
      (∀ e ∈ s.limitsEnd, ∀ p ∈ l.head?, e < p.1) →
      List.foldlM ingestRange s l =
        Except.ok ⟨s.ranges ++ l.map (fun p => ⟨p.1, p.2⟩)⟩ := by
  induction l with
  | nil =>
    intro s _ _ _
    simp only [List.foldlM_nil, List.map_nil, List.append_nil]
    rfl
  | cons p l ih =>
    intro s hv hch hend
    have hvp := hv p (List.mem_cons_self p l)
    have hstep : ingestRange s p = Except.ok ⟨s.ranges ++ [⟨p.1, p.2⟩]⟩ := by
      have h1 : ¬ (p.1 < 1) := by omega
      have h2 : ¬ (p.2 < p.1) := by omega
      cases he : s.limitsEnd with
      | none =>
        simp [ingestRange, he, FrameRange.make, FrameRange.validateRange, h1, h2]
      | some e =>
        have hlt : e < p.1 := hend e (by rw [he]; rfl) p rfl
        have hne : ¬ (p.1 ≤ e) := by omega
        simp [ingestRange, he, FrameRange.make, FrameRange.validateRange,
          h1, h2, hne]
    rw [List.foldlM_cons, hstep]
    show List.foldlM ingestRange ⟨s.ranges ++ [⟨p.1, p.2⟩]⟩ l = _
    have hrec := ih ⟨s.ranges ++ [⟨p.1, p.2⟩]⟩
      (fun q hq => hv q (List.mem_cons_of_mem p hq))
      (List.Chain'.tail hch)
      (by
        intro e he q hq
        simp only [limitsEnd, List.getLast?_concat, Option.map_some',
          Option.mem_def, Option.some_inj] at he
        subst he
        rcases l with _ | ⟨q0, l⟩
        · cases hq
        · simp only [List.head?_cons, Option.mem_def, Option.some_inj] at hq
          subst hq
          exact (List.chain'_cons.mp hch).1)
    rw [hrec]
    simp

/-- `fromTuples` on a valid, strictly increasing tuple list reproduces the
tuples as ranges. -/
theorem fromTuples_ok (l : List (ℤ × ℤ))
    (hv : ∀ p ∈ l, 1 ≤ p.1 ∧ p.1 ≤ p.2)
    (hch : l.Chain' (fun p q => p.2 < q.1)) :
    fromTuples l = Except.ok ⟨l.map (fun p => ⟨p.1, p.2⟩)⟩ := by
  unfold fromTuples
  rw [foldlM_ingestRange l ⟨[]⟩ hv hch (by intro e he; cases he)]
  rfl

/-- `simplify` leaves a gap-separated instance untouched. -/
theorem simplify_of_gapSep (u : FrameRanges)
    (h : u.ranges.Chain' (fun a b => a.last + 1 < b.first)) :
    u.simplify = Except.ok u := by
  cases hu : u.ranges with
  | nil => unfold simplify; rw [hu]
  | cons q0 qrest =>
    rw [hu] at h
    have h' : (FrameRange.mk q0.first q0.last :: qrest).Chain'
        (fun a b => a.last + 1 < b.first) := h
    have hpass := mergePass_of_gapSep qrest q0.first q0.last h'
    unfold simplify
    rw [hu]
    simp [hpass]

end FrameRanges

end Eta

/-! ### Claim C4 -/

/-- C4: on every valid interval set, `simplify` succeeds; the result covers
exactly the same frames while no adjacent pair of the result satisfies the
merge condition `next.first ≤ prev.last + 1` (so exactly the mergeable
adjacent pairs were merged), and `simplify` is idempotent: applying it to
the result returns the result unchanged. -/
theorem C4_simplify_idempotent (s : Eta.FrameRanges) (hval : s.Valid) :
    ∃ t : Eta.FrameRanges,
      s.simplify = Except.ok t ∧
      t.simplify = Except.ok t ∧
      t.toList = s.toList ∧
      t.ranges.Chain' (fun a b => a.last + 1 < b.first) := by
  obtain ⟨hv, hch⟩ := hval
  cases hr : s.ranges with
  | nil =>
    refine ⟨s, ?_, ?_, rfl, ?_⟩
    · unfold Eta.FrameRanges.simplify; rw [hr]
    · unfold Eta.FrameRanges.simplify; rw [hr]
    · rw [hr]; exact List.chain'_nil
  | cons r0 rest =>
    rw [hr] at hv hch
    have hv0 := hv r0 (List.mem_cons_self r0 rest)
    have hvrest : ∀ x ∈ rest, 1 ≤ x.first ∧ x.first ≤ x.last :=
      fun x hx => hv x (List.mem_cons_of_mem r0 hx)
    have hch0 : (Eta.FrameRange.mk r0.first r0.last :: rest).Chain'
        (fun a b => a.last < b.first) := hch
    obtain ⟨mh, mv, mc, mf, mid⟩ :=
      Eta.FrameRanges.mergePass_spec rest r0.first r0.last hv0.1 hv0.2
        hvrest hch0
    have hsim : s.simplify =
        (if (Eta.FrameRanges.mergePass (r0.first, r0.last) rest).2 then
          Eta.FrameRanges.fromTuples
            (Eta.FrameRanges.mergePass (r0.first, r0.last) rest).1
        else Except.ok s) := by
      unfold Eta.FrameRanges.simplify
      rw [hr]
    cases hflag : (Eta.FrameRanges.mergePass (r0.first, r0.last) rest).2 with
    | false =>
      have hid := mid hflag
      have hgap : s.ranges.Chain' (fun a b => a.last + 1 < b.first) := by
        rw [hid, List.chain'_map] at mc
        rw [hr]
        exact mc
      refine ⟨s, ?_, ?_, rfl, hgap⟩ <;>
        rw [hsim, hflag, if_neg (by simp)]
    | true =>
      set res := (Eta.FrameRanges.mergePass (r0.first, r0.last) rest).1 with hres
      have hok : Eta.FrameRanges.fromTuples res =
          Except.ok ⟨res.map (fun p => ⟨p.1, p.2⟩)⟩ :=
        Eta.FrameRanges.fromTuples_ok res mv
          (mc.imp (fun hpq => by omega))
      refine ⟨⟨res.map (fun p => ⟨p.1, p.2⟩)⟩, ?_, ?_, ?_, ?_⟩
      · rw [hsim, hflag, if_pos rfl, hok]
      · -- the merged result is gap-separated, so a second pass does nothing
        exact Eta.FrameRanges.simplify_of_gapSep _
          (by rw [List.chain'_map]; exact mc)
      · show (res.map (fun p => Eta.FrameRange.mk p.1 p.2)).flatMap
            Eta.FrameRange.toList = s.toList
        have hmap : (res.map (fun p => Eta.FrameRange.mk p.1 p.2)).flatMap
            Eta.FrameRange.toList =
            res.flatMap (fun p => Eta.FrameRange.intervalList p.1 p.2) := by
          rw [List.flatMap_map]
          rfl
        rw [hmap, mf]
        show _ = s.ranges.flatMap Eta.FrameRange.toList
        rw [hr]
        rfl
      · rw [List.chain'_map]
        exact mc

/-- Witness for C4 at the concrete valid interval set `{1-2, 3-4, 7-8}`
(which simplifies to `{1-4, 7-8}`). -/
theorem C4_simplify_idempotent_witness :
    ∃ t : Eta.FrameRanges,
      Eta.FrameRanges.simplify ⟨[⟨1, 2⟩, ⟨3, 4⟩, ⟨7, 8⟩]⟩ = Except.ok t ∧
      t.simplify = Except.ok t ∧
      t.toList = Eta.FrameRanges.toList ⟨[⟨1, 2⟩, ⟨3, 4⟩, ⟨7, 8⟩]⟩ ∧
      t.ranges.Chain' (fun a b => a.last + 1 < b.first) :=
  C4_simplify_idempotent ⟨[⟨1, 2⟩, ⟨3, 4⟩, ⟨7, 8⟩]⟩
    ⟨by decide, List.chain'_cons.mpr ⟨by decide,
      List.chain'_cons.mpr ⟨by decide, List.chain'_singleton _⟩⟩⟩

/-! ### Helper lemmas for `from_bools (to_bools s n)` (claim C7) -/

namespace Eta

/-- Two strictly increasing integer lists with the same members are equal. -/
theorem sortedInt_eq_of_mem_iff :
    ∀ {l₁ l₂ : List ℤ}, l₁.Chain' (· < ·) → l₂.Chain' (· < ·) →
      (∀ f, f ∈ l₁ ↔ f ∈ l₂) → l₁ = l₂
  | [], [], _, _, _ => rfl
  | [], b :: t₂, _, _, hmem => by
    exact absurd ((hmem b).mpr (List.mem_cons_self b t₂)) (List.not_mem_nil b)
  | a :: t₁, [], _, _, hmem => by
    exact absurd ((hmem a).mp (List.mem_cons_self a t₁)) (List.not_mem_nil a)
  | a :: t₁, b :: t₂, h₁, h₂, hmem => by
    have hp₁ := List.chain'_iff_pairwise.mp h₁
    have hp₂ := List.chain'_iff_pairwise.mp h₂
    have ha₁ : ∀ x ∈ t₁, a < x := (List.pairwise_cons.mp hp₁).1
    have hb₂ : ∀ x ∈ t₂, b < x := (List.pairwise_cons.mp hp₂).1
    have hab : a = b := by
      rcases List.mem_cons.mp ((hmem a).mp (List.mem_cons_self a t₁)) with h | h
      · exact h
      · rcases List.mem_cons.mp ((hmem b).mpr (List.mem_cons_self b t₂)) with h' | h'
        · omega
        · have := ha₁ b h'
          have := hb₂ a h
          omega
    subst hab
    have hmem' : ∀ f, f ∈ t₁ ↔ f ∈ t₂ := by
      intro f
      constructor
      · intro hf
        rcases List.mem_cons.mp ((hmem f).mp (List.mem_cons_of_mem a hf)) with h | h
        · exact absurd (ha₁ f hf) (by omega)
        · exact h
      · intro hf
        rcases List.mem_cons.mp ((hmem f).mpr (List.mem_cons_of_mem a hf)) with h | h
        · exact absurd (hb₂ f hf) (by omega)
        · exact h
    exact congrArg (a :: ·)
      (sortedInt_eq_of_mem_iff (List.Chain'.tail h₁) (List.Chain'.tail h₂) hmem')

namespace FrameRange

theorem intervalList_singleton {a : ℤ} : intervalList a a = [a] := by
  rw [intervalList_cons le_rfl, intervalList_nil (by omega)]

end FrameRange

namespace FrameRanges

/-- The frame list of a valid list of ranges is strictly increasing. -/
theorem flatMap_toList_chain :
    ∀ (l : List FrameRange), (∀ r ∈ l, r.first ≤ r.last) →
      l.Chain' (fun a b => a.last < b.first) →
      (l.flatMap FrameRange.toList).Chain' (· < ·)
  | [], _, _ => List.chain'_nil
  | r :: rest, hv, hch => by
    rw [List.flatMap_cons, List.chain'_append]
    have hvr := hv r (List.mem_cons_self r rest)
    refine ⟨FrameRange.intervalList_chain,
      flatMap_toList_chain rest
        (fun x hx => hv x (List.mem_cons_of_mem r hx))
        (List.Chain'.tail hch), ?_⟩
    intro x hx y hy
    rw [show r.toList.getLast? = some r.last from
      FrameRange.intervalList_getLast hvr] at hx
    simp only [Option.mem_def, Option.some_inj] at hx
    subst hx
    cases rest with
    | nil => simp at hy
    | cons r2 rest2 =>
      have hvr2 := hv r2 (List.mem_cons_of_mem r (List.mem_cons_self r2 rest2))
      rw [List.flatMap_cons, show r2.toList = r2.first :: _ from
        FrameRange.intervalList_cons hvr2, List.cons_append] at hy
      simp only [List.head?_cons, Option.mem_def, Option.some_inj] at hy
      subst hy
      exact (List.chain'_cons.mp hch).1

/-- Membership in the frame list of a `FrameRanges`. -/
theorem mem_toList {s : FrameRanges} {f : ℤ} :
    f ∈ s.toList ↔ ∃ r ∈ s.ranges, r.first ≤ f ∧ f ≤ r.last := by
  unfold toList
  simp [List.mem_flatMap, FrameRange.toList, FrameRange.mem_intervalList]

/-- Characterisation of `groupRuns` on a strictly increasing tail. -/
theorem groupRuns_spec :
    ∀ (l : List ℤ) (first last : ℤ), 1 ≤ first → first ≤ last →
      (last :: l).Chain' (· < ·) →
      (∀ p ∈ groupRuns first last l, 1 ≤ p.1 ∧ p.1 ≤ p.2) ∧
      (groupRuns first last l).Chain' (fun p q => p.2 < q.1) ∧
      (groupRuns first last l).flatMap
          (fun p => FrameRange.intervalList p.1 p.2) =
        FrameRange.intervalList first last ++ l
  | [], first, last, h1, h2, _ => by
    refine ⟨?_, List.chain'_singleton _, by simp [groupRuns]⟩
    intro p hp
    simp only [groupRuns, List.mem_singleton] at hp
    subst hp
    exact ⟨h1, h2⟩
  | v :: rest, first, last, h1, h2, hch => by
    obtain ⟨hlt, hch'⟩ := List.chain'_cons.mp hch
    by_cases hv : v = last + 1
    · subst hv
      obtain ⟨ih1, ih2, ih3⟩ :=
        groupRuns_spec rest first (last + 1) h1 (by omega) hch'
      have hg : groupRuns first last ((last + 1) :: rest) =
          groupRuns first (last + 1) rest := by
        simp [groupRuns]
      rw [hg]
      refine ⟨ih1, ih2, ?_⟩
      rw [ih3, FrameRange.intervalList_append (a := first) (b := last)
        (c := last + 1) (by omega) (by omega), FrameRange.intervalList_singleton,
        List.append_assoc]
      rfl
    · obtain ⟨ih1, ih2, ih3⟩ :=
        groupRuns_spec rest v v (by omega) le_rfl hch'
      simp only [groupRuns, if_neg hv]
      refine ⟨?_, ?_, ?_⟩
      · intro p hp
        rcases List.mem_cons.mp hp with hp | hp
        · subst hp; exact ⟨h1, h2⟩
        · exact ih1 p hp
      · rw [List.chain'_cons']
        refine ⟨fun q hq => ?_, ih2⟩
        have hhead : ∀ (l' : List ℤ) (f la : ℤ),
            ((groupRuns f la l').head?.map Prod.fst) = some f := by
          intro l'
          induction l' with
          | nil => intro f la; rfl
          | cons w t ihw =>
            intro f la
            unfold groupRuns
            split_ifs
            · exact ihw f (la + 1)
            · rfl
        rcases hh : (groupRuns v v rest).head? with _ | q0
        · rw [hh] at hq; cases hq
        · have := hhead rest v v
          rw [hh] at this hq
          simp at this hq
          subst hq
          omega
      · rw [List.flatMap_cons, ih3, FrameRange.intervalList_singleton]
        rfl

/-- `from_iterable` on a strictly increasing list of frames `≥ 1` succeeds
and reproduces exactly those frames. -/
theorem fromIterable_sorted (l : List ℤ) (hch : l.Chain' (· < ·))
    (h1 : ∀ f ∈ l, 1 ≤ f) :
    ∃ t : FrameRanges, fromIterable l = Except.ok t ∧ t.toList = l ∧ t.Valid := by
  have hsorted : List.Sorted (· ≤ ·) l :=
    (List.chain'_iff_pairwise.mp hch).imp le_of_lt
  have hid : List.insertionSort (· ≤ ·) l = l := hsorted.insertionSort_eq
  cases l with
  | nil => exact ⟨⟨[]⟩, rfl, rfl, by constructor <;> simp⟩
  | cons v rest =>
    have hruns : iterableToRanges (v :: rest) = groupRuns v v rest := by
      unfold iterableToRanges
      rw [hid]
    obtain ⟨g1, g2, g3⟩ := groupRuns_spec rest v v
      (h1 v (List.mem_cons_self v rest)) le_rfl hch
    have hok := fromTuples_ok (groupRuns v v rest) g1 g2
    refine ⟨⟨(groupRuns v v rest).map (fun p => ⟨p.1, p.2⟩)⟩, ?_, ?_, ?_, ?_⟩
    · unfold fromIterable
      rw [hruns, hok]
    · show ((groupRuns v v rest).map (fun p => FrameRange.mk p.1 p.2)).flatMap
        FrameRange.toList = v :: rest
      rw [List.flatMap_map]
      show (groupRuns v v rest).flatMap
        (fun p => FrameRange.intervalList p.1 p.2) = v :: rest
      rw [g3, FrameRange.intervalList_singleton]
      rfl
    · intro r hr
      rw [List.mem_map] at hr
      obtain ⟨p, hp, rfl⟩ := hr
      exact g1 p hp
    · rw [List.chain'_map]
      exact g2

end FrameRanges

end Eta

namespace Eta

namespace FrameRanges

theorem toBools_length {s : FrameRanges} {n : ℤ} :
    (s.toBools n).length = n.toNat := by
  simp [toBools]

theorem toBools_getD {s : FrameRanges} {n : ℤ} {j : ℕ} (hj : j < n.toNat) :
    (s.toBools n).getD j false = decide (((j : ℤ) + 1) ∈ s.toList) := by
  unfold toBools
  rw [List.getD_eq_getElem?_getD, List.getElem?_map, List.getElem?_range hj]
  rfl

theorem trueFrames_chain (bools : List Bool) :
    (trueFrames bools).Chain' (· < ·) := by
  unfold trueFrames
  refine List.Pairwise.chain' ?_
  refine List.Pairwise.map _ (fun a b (h : a < b) => ?_)
    ((List.pairwise_lt_range _).filter _)
  omega

theorem mem_trueFrames {bools : List Bool} {f : ℤ} :
    f ∈ trueFrames bools ↔
      ∃ j : ℕ, j < bools.length ∧ bools.getD j false = true ∧ f = (j : ℤ) + 1 := by
  unfold trueFrames
  simp only [List.mem_map, List.mem_filter, List.mem_range]
  constructor
  · rintro ⟨j, ⟨hlen, hp⟩, rfl⟩
    exact ⟨j, hlen, hp, rfl⟩
  · rintro ⟨j, hlen, hp, rfl⟩
    exact ⟨j, ⟨hlen, hp⟩, rfl⟩

end FrameRanges

end Eta

/-! ### Claim C7 -/

/-- C7: for a valid interval set `s` and a mask size `n` at least as large as
every frame of `s`, `from_bools(to_bools(s, n))` succeeds and reproduces `s`:
the result contains exactly the frames of `s` (in particular the two agree on
every frame `≤ n`). -/
theorem C7_from_bools_to_bools (s : Eta.FrameRanges) (n : ℤ)
    (hs : s.Valid) (hn : ∀ r ∈ s.ranges, r.last ≤ n) :
    ∃ t : Eta.FrameRanges,
      Eta.FrameRanges.fromBools (s.toBools n) = Except.ok t ∧
      t.toList = s.toList ∧
      ∀ f : ℤ, f ∈ t.toList ↔ f ∈ s.toList := by
  have h1 : ∀ f ∈ s.toList, 1 ≤ f := by
    intro f hf
    obtain ⟨r, hr, hfr⟩ := Eta.FrameRanges.mem_toList.mp hf
    have := hs.1 r hr
    omega
  have hle : ∀ f ∈ s.toList, f ≤ n := by
    intro f hf
    obtain ⟨r, hr, hfr⟩ := Eta.FrameRanges.mem_toList.mp hf
    have := hn r hr
    omega
  have hchain : s.toList.Chain' (· < ·) :=
    Eta.FrameRanges.flatMap_toList_chain s.ranges
      (fun r hr => (hs.1 r hr).2) hs.2
  have hmem : ∀ f, f ∈ Eta.FrameRanges.trueFrames (s.toBools n) ↔ f ∈ s.toList := by
    intro f
    rw [Eta.FrameRanges.mem_trueFrames]
    constructor
    · rintro ⟨j, hlen, hp, rfl⟩
      rw [Eta.FrameRanges.toBools_length] at hlen
      rw [Eta.FrameRanges.toBools_getD hlen] at hp
      exact of_decide_eq_true hp
    · intro hf
      have h1f := h1 f hf
      have hnf := hle f hf
      refine ⟨(f - 1).toNat, ?_, ?_, by omega⟩
      · rw [Eta.FrameRanges.toBools_length]; omega
      · rw [Eta.FrameRanges.toBools_getD (by omega)]
        rw [show (((f - 1).toNat : ℤ) + 1) = f by omega]
        exact decide_eq_true hf
  have heq : Eta.FrameRanges.trueFrames (s.toBools n) = s.toList :=
    Eta.sortedInt_eq_of_mem_iff
      (Eta.FrameRanges.trueFrames_chain _) hchain hmem
  obtain ⟨t, hok, htl, _⟩ :=
    Eta.FrameRanges.fromIterable_sorted s.toList hchain h1
  refine ⟨t, ?_, htl, fun f => by rw [htl]⟩
  unfold Eta.FrameRanges.fromBools
  rw [heq]
  exact hok

/-- Witness for C7 at the concrete valid interval set `{1-2, 4}` with mask
size `6`. -/
theorem C7_from_bools_to_bools_witness :
    ∃ t : Eta.FrameRanges,
      Eta.FrameRanges.fromBools
          (Eta.FrameRanges.toBools ⟨[⟨1, 2⟩, ⟨4, 4⟩]⟩ 6) = Except.ok t ∧
      t.toList = Eta.FrameRanges.toList ⟨[⟨1, 2⟩, ⟨4, 4⟩]⟩ ∧
      ∀ f : ℤ, f ∈ t.toList ↔ f ∈ Eta.FrameRanges.toList ⟨[⟨1, 2⟩, ⟨4, 4⟩]⟩ :=
  C7_from_bools_to_bools ⟨[⟨1, 2⟩, ⟨4, 4⟩]⟩ 6
    ⟨by decide, List.chain'_cons.mpr ⟨by decide, List.chain'_singleton _⟩⟩
    (by decide)

/-! ### Helper lemmas for the human-string round trip (claim C8) -/

namespace Eta

namespace FrameRange

theorem charDigit_digitChar {d : ℕ} (hd : d < 10) :
    charDigit (digitChar d) = some d := by
  interval_cases d <;> rfl

theorem charDigit_dash : charDigit '-' = none := rfl

theorem foldlM_digits :
    ∀ (ds : List ℕ) (acc : ℕ), (∀ d ∈ ds, d < 10) →
      (ds.map digitChar).foldlM
          (fun acc c => (charDigit c).map (fun d => 10 * acc + d)) acc =
        some (ds.foldl (fun a d => 10 * a + d) acc)
  | [], _, _ => rfl
  | d :: ds, acc, h => by
    rw [List.map_cons, List.foldlM_cons,
      charDigit_digitChar (h d (List.mem_cons_self d ds))]
    show (ds.map digitChar).foldlM
        (fun acc c => (charDigit c).map (fun d => 10 * acc + d))
        (10 * acc + d) = _
    rw [foldlM_digits ds _ (fun x hx => h x (List.mem_cons_of_mem d hx))]
    rfl

theorem foldr_ofDigits (ds : List ℕ) :
    ds.foldr (fun x y => 10 * y + x) 0 = Nat.ofDigits 10 ds := by
  induction ds with
  | nil => rfl
  | cons d ds ih =>
    rw [List.foldr_cons, Nat.ofDigits_cons, ih]
    ring

theorem parseNat_natToChars (n : ℕ) : parseNat (natToChars n) = some n := by
  by_cases h0 : n = 0
  · subst h0; rfl
  · unfold natToChars parseNat
    rw [if_neg h0]
    have hne : ((Nat.digits 10 n).reverse.map digitChar).isEmpty = false := by
      simp [Nat.digits_ne_nil_iff_ne_zero, h0]
    simp only [hne, Bool.false_eq_true, if_false]
    rw [foldlM_digits _ 0 (fun d hd =>
      Nat.digits_lt_base (by norm_num) (List.mem_reverse.mp hd))]
    rw [List.foldl_reverse, foldr_ofDigits, Nat.ofDigits_digits]

theorem natToChars_ne_nil (n : ℕ) : natToChars n ≠ [] := by
  unfold natToChars
  split_ifs with h0
  · simp
  · simp [Nat.digits_ne_nil_iff_ne_zero, h0]

theorem natToChars_no_dash (n : ℕ) : ∀ c ∈ natToChars n, c ≠ '-' := by
  intro c hc
  unfold natToChars at hc
  split_ifs at hc with h0
  · rw [List.mem_singleton] at hc
    subst hc
    decide
  · rw [List.mem_map] at hc
    obtain ⟨d, hd, rfl⟩ := hc
    have hd10 : d < 10 :=
      Nat.digits_lt_base (by norm_num) (List.mem_reverse.mp hd)
    intro hEq
    have hcd := charDigit_digitChar hd10
    rw [hEq] at hcd
    simp [charDigit] at hcd

theorem intToChars_pos {i : ℤ} (h : 1 ≤ i) :
    intToChars i = natToChars i.toNat := by
  unfold intToChars
  rw [if_neg (by omega)]

theorem intToChars_pos_no_dash {i : ℤ} (h : 1 ≤ i) :
    ∀ c ∈ intToChars i, c ≠ '-' := by
  rw [intToChars_pos h]
  exact natToChars_no_dash _

theorem parseInt_intToChars_pos {i : ℤ} (h : 1 ≤ i) :
    parseInt (intToChars i) = some i := by
  rw [intToChars_pos h]
  rcases hcs : natToChars i.toNat with _ | ⟨c, rest⟩
  · exact absurd hcs (natToChars_ne_nil _)
  · show (if c = '-' then (parseNat rest).map (fun n => -(n : ℤ))
      else (parseNat (c :: rest)).map (fun n => (n : ℤ))) = some i
    rw [if_neg (natToChars_no_dash i.toNat c
      (by rw [hcs]; exact List.mem_cons_self c rest)), ← hcs,
      parseNat_natToChars]
    show some ((i.toNat : ℤ)) = some i
    rw [Int.toNat_of_nonneg (by omega)]

theorem splitOnDash_no_dash :
    ∀ {cs : List Char}, (∀ c ∈ cs, c ≠ '-') → splitOnDash cs = [cs]
  | [], _ => rfl
  | c :: rest, h => by
    unfold splitOnDash
    rw [if_neg (h c (List.mem_cons_self c rest)),
      splitOnDash_no_dash (fun x hx => h x (List.mem_cons_of_mem c hx))]

theorem splitOnDash_append :
    ∀ {A : List Char} (B : List Char), (∀ c ∈ A, c ≠ '-') →
      splitOnDash (A ++ '-' :: B) = A :: splitOnDash B
  | [], B, _ => rfl
  | a :: A, B, h => by
    show (if a = '-' then [] :: splitOnDash (A ++ '-' :: B)
      else
        match splitOnDash (A ++ '-' :: B) with
        | t :: ts => (a :: t) :: ts
        | [] => [[a]]) = (a :: A) :: splitOnDash B
    rw [if_neg (h a (List.mem_cons_self a A)),
      splitOnDash_append B (fun x hx => h x (List.mem_cons_of_mem a hx))]

end FrameRange

end Eta

/-! ### Claim C8 -/

/-- C8, as stated over all integers `first ≤ last`, is false on the code:
already the construction step fails, since `FrameRange.__init__` validates
`first >= 1`; at `(0, 0)` it raises `FrameRangeError` and no interval exists
to be rendered and parsed back. -/
theorem C8_human_str_counterexample :
    Eta.FrameRange.make 0 0 = Except.error Eta.Err.frameRangeErr := by
  rfl

/-- C8 amended: for all `1 ≤ first ≤ last` (equivalently, whenever the
construction step succeeds), rendering the interval to its human string and
parsing that string back yields an interval equal to the original. -/
theorem C8_human_str_roundtrip (f l : ℤ) (fr : Eta.FrameRange)
    (hmk : Eta.FrameRange.make f l = Except.ok fr) :
    Eta.FrameRange.fromHumanStr fr.toHumanStr = Except.ok fr := by
  have hprops : 1 ≤ f ∧ f ≤ l ∧ fr = ⟨f, l⟩ := by
    unfold Eta.FrameRange.make Eta.FrameRange.validateRange at hmk
    split_ifs at hmk with hA hB
    cases hmk
    exact ⟨by omega, by omega, rfl⟩
  obtain ⟨h1, h2, rfl⟩ := hprops
  have hmkok : Eta.FrameRange.make f l = Except.ok ⟨f, l⟩ := by
    unfold Eta.FrameRange.make Eta.FrameRange.validateRange
    rw [if_neg (by omega), if_neg (by omega)]
  by_cases hfl : f = l
  · subst hfl
    unfold Eta.FrameRange.toHumanStr
    rw [if_pos rfl]
    unfold Eta.FrameRange.fromHumanStr
    rw [Eta.FrameRange.splitOnDash_no_dash
      (Eta.FrameRange.intToChars_pos_no_dash h1)]
    rw [show ([Eta.FrameRange.intToChars f].mapM Eta.FrameRange.parseInt) =
        some [f] by
      rw [List.mapM_cons, Eta.FrameRange.parseInt_intToChars_pos h1]
      rfl]
    exact hmkok
  · unfold Eta.FrameRange.toHumanStr
    rw [if_neg hfl]
    unfold Eta.FrameRange.fromHumanStr
    rw [Eta.FrameRange.splitOnDash_append _
        (Eta.FrameRange.intToChars_pos_no_dash h1),
      Eta.FrameRange.splitOnDash_no_dash
        (Eta.FrameRange.intToChars_pos_no_dash (by omega : (1:ℤ) ≤ l))]
    rw [show ([Eta.FrameRange.intToChars f,
        Eta.FrameRange.intToChars l].mapM Eta.FrameRange.parseInt) =
        some [f, l] by
      rw [List.mapM_cons, Eta.FrameRange.parseInt_intToChars_pos h1,
        List.mapM_cons, Eta.FrameRange.parseInt_intToChars_pos
          (by omega : (1:ℤ) ≤ l)]
      rfl]
    exact hmkok

/-- Witness for C8 at the concrete interval `(3, 7)`, whose human string is
`"3-7"`. -/
theorem C8_human_str_roundtrip_witness :
    Eta.FrameRange.fromHumanStr
        (Eta.FrameRange.toHumanStr ⟨3, 7⟩) = Except.ok ⟨3, 7⟩ :=
  C8_human_str_roundtrip 3 7 ⟨3, 7⟩ (by rfl)

/-! ### Claim C5 -/

/-- C5: `Object.support` returns the explicitly supplied support when one
was given at construction; otherwise it is computed as
`FrameRanges.from_iterable` of the keys of the `frames` map; and it never
depends on (hence never includes frames contributed only by) the child
objects — replacing `child_objects` arbitrarily leaves `support`
unchanged. -/
theorem C5_object_support (o : Eta.Object) :
    (∀ s, o.supportExplicit = some s → o.support = Except.ok s) ∧
    (o.supportExplicit = none →
      o.support = Eta.FrameRanges.fromIterable (o.frames.map Prod.fst)) ∧
    (∀ cs : List String,
      Eta.Object.support { o with childObjects := cs } = o.support) := by
  refine ⟨?_, ?_, ?_⟩
  · intro s hs
    unfold Eta.Object.support
    rw [hs]
  · intro hs
    unfold Eta.Object.support
    rw [hs]
  · intro cs
    unfold Eta.Object.support
    rfl

/-- Witness for C5: an object with explicit support `{1-3}` returns it, and
an object without explicit support and frames `{2, 4}` computes `{2, 4}`
regardless of its children. -/
theorem C5_object_support_witness :
    (Eta.Object.support
        ⟨some "car", none, some ⟨[⟨1, 3⟩]⟩, none, none, [], [], []⟩ =
      Except.ok ⟨[⟨1, 3⟩]⟩) ∧
    (Eta.Object.support
        ⟨some "car", none, none, none, none, [],
          [(2, ⟨none, none, none, none, []⟩), (4, ⟨none, none, none, none, []⟩)],
          ["child-uuid"]⟩ =
      Eta.FrameRanges.fromIterable [2, 4]) := by
  constructor
  · exact (C5_object_support _).1 ⟨[⟨1, 3⟩]⟩ rfl
  · exact (C5_object_support _).2.1 rfl

/-! ### Claim C6 -/

/-- C6: `Object.add_detection(detected, frame_number)` stores the detection
under the explicit frame number when given (overwriting the detection's
own), else under the detection's own frame number; it fails with
`ValueError` (the spec's `MissingFrameNumber`) exactly when neither is
present; and the stored detection's label is always cleared to `None`. -/
theorem C6_add_detection (o : Eta.Object) (dobj : Eta.DetectedObject)
    (fno : Option ℤ) :
    (o.addDetection dobj fno = Except.error Eta.Err.valueErr ↔
      fno = none ∧ dobj.frameNumber = none) ∧
    (∀ fn, fno = some fn →
      o.addDetection dobj fno = Except.ok { o with frames := (Eta.assocSet
        o.frames fn { dobj with frameNumber := some fn, label := none }) }) ∧
    (fno = none → ∀ fn, dobj.frameNumber = some fn →
      o.addDetection dobj fno = Except.ok { o with frames := (Eta.assocSet
        o.frames fn { dobj with label := none }) }) := by
  cases fno with
  | some fn =>
    have hv : o.addDetection dobj (some fn) = Except.ok { o with frames :=
        (Eta.assocSet o.frames fn
          { dobj with frameNumber := some fn, label := none }) } := rfl
    refine ⟨?_, ?_, ?_⟩
    · rw [hv]
      constructor
      · intro h; cases h
      · rintro ⟨h, -⟩; cases h
    · intro fn' hfn'
      cases hfn'
      exact hv
    · intro h; cases h
  | none =>
    cases hd : dobj.frameNumber with
    | none =>
      have hv : o.addDetection dobj none = Except.error Eta.Err.valueErr := by
        unfold Eta.Object.addDetection
        rw [hd]
      refine ⟨?_, ?_, ?_⟩
      · rw [hv]; simp
      · intro fn h; cases h
      · intro _ fn h; cases h
    | some fn =>
      have hv : o.addDetection dobj none = Except.ok { o with frames :=
          (Eta.assocSet o.frames fn { dobj with label := none }) } := by
        unfold Eta.Object.addDetection
        rw [hd]
      rw [hd] at hv
      refine ⟨?_, ?_, ?_⟩
      · rw [hv]
        constructor
        · intro h; cases h
        · rintro ⟨-, h⟩; cases h
      · intro fn' h; cases h
      · intro _ fn' h
        cases h
        exact hv

/-- Witness for C6: adding a detection with only its own frame number set
stores it there with a cleared label, and adding one with no frame number
at all fails. -/
theorem C6_add_detection_witness :
    (Eta.Object.addDetection ⟨none, none, none, none, none, [], [], []⟩
        ⟨some "car", none, none, some 7, []⟩ none =
      Except.ok ⟨none, none, none, none, none, [],
        [(7, ⟨none, none, none, some 7, []⟩)], []⟩) ∧
    (Eta.Object.addDetection ⟨none, none, none, none, none, [], [], []⟩
        ⟨some "car", none, none, none, []⟩ none =
      Except.error Eta.Err.valueErr) := by
  constructor
  · exact (C6_add_detection ⟨none, none, none, none, none, [], [], []⟩
      ⟨some "car", none, none, some 7, []⟩ none).2.2 rfl 7 rfl
  · exact (C6_add_detection ⟨none, none, none, none, none, [], [], []⟩
      ⟨some "car", none, none, none, []⟩ none).1.mpr ⟨rfl, rfl⟩

/-! ### Claim C10 -/

/-- C10: `ObjectContainer.iter_detected_objects` yields exactly the
elements of each matching object's `child_objects` set — uuid strings, not
the `DetectedObject` values of the `frames` map — and
`iter_detected_object_attrs` consequently reads `attrs` off those uuid
strings, which raises `AttributeError` as soon as any matching object has a
child (and yields nothing otherwise). -/
theorem C10_iter_detected_objects (c : Eta.ObjectContainer) (label : String) :
    (∀ u : String, u ∈ c.iterDetectedObjects label ↔
      ∃ o ∈ c.objects, (label = "*" ∨ o.label = some label) ∧
        u ∈ o.childObjects) ∧
    (c.iterDetectedObjectAttrs label = Except.error Eta.Err.attributeErr ↔
      c.iterDetectedObjects label ≠ []) := by
  constructor
  · intro u
    unfold Eta.ObjectContainer.iterDetectedObjects
      Eta.ObjectContainer.iterObjects
    simp only [List.mem_flatMap, List.mem_filter, Bool.or_eq_true,
      decide_eq_true_eq]
    constructor
    · rintro ⟨o, ⟨ho, hl⟩, hu⟩
      exact ⟨o, ho, hl, hu⟩
    · rintro ⟨o, ho, hl, hu⟩
      exact ⟨o, ⟨ho, hl⟩, hu⟩
  · unfold Eta.ObjectContainer.iterDetectedObjectAttrs
    cases c.iterDetectedObjects label with
    | nil => simp
    | cons u us => simp

/-! ### Claim C1 -/

/-- C1 (code bug): `build_active_schema(obj).validate(obj)` cannot even
reach `validate`: `_add_detected_object` evaluates `dobj.frames`, an
attribute `DetectedObject` does not define, so `build_active_schema` raises
`AttributeError` for EVERY `DetectedObject` (and `_add_object` passes the
`frames` dict to `add_frame_attributes`, so it also raises for every
`Object` with at least one detection).  The theorem shows the concrete
failures at a plain `DetectedObject(label="car")` and at an `Object` with
one detection, and that no `DetectedObject` whatsoever survives
`build_active_schema`. -/
theorem C1_build_active_schema_raises :
    (Eta.ObjectSchema.buildActiveSchemaDetected
        ⟨some "car", none, none, none, []⟩ =
      Except.error Eta.Err.attributeErr) ∧
    (Eta.ObjectSchema.buildActiveSchema
        ⟨some "car", none, none, none, none, [],
          [(3, ⟨none, none, none, some 3, []⟩)], []⟩ =
      Except.error Eta.Err.attributeErr) ∧
    (∀ dobj : Eta.DetectedObject,
      ∃ e, Eta.ObjectSchema.buildActiveSchemaDetected dobj = Except.error e) := by
  refine ⟨rfl, rfl, ?_⟩
  intro dobj
  have hval : (Eta.ObjectSchema.emptySchema dobj.label).validateLabel
      dobj.label = Except.ok () := by
    unfold Eta.ObjectSchema.validateLabel
    rw [if_neg]
    simp [Eta.ObjectSchema.emptySchema, Eta.ObjectSchema.label]
  rcases haa : (Eta.ObjectSchema.emptySchema dobj.label).attrs.addAttributes
      dobj.attrs with e | a
  · refine ⟨e, ?_⟩
    simp [Eta.ObjectSchema.buildActiveSchemaDetected,
      Eta.ObjectSchema.addDetectedObject, hval, haa]
  · refine ⟨Eta.Err.attributeErr, ?_⟩
    simp [Eta.ObjectSchema.buildActiveSchemaDetected,
      Eta.ObjectSchema.addDetectedObject, hval, haa]

/-! ### Helper lemmas for `merge_schema` (claim C9): attribute schemas -/

namespace Eta

namespace AttrContainerSchema

theorem mem_insertValue {vs : List String} {w v : String} :
    v ∈ insertValue vs w ↔ v ∈ vs ∨ v = w := by
  unfold insertValue
  split_ifs with h
  · constructor
    · exact Or.inl
    · rintro (hv | rfl)
      · exact hv
      · exact h
  · simp [List.mem_append]

theorem mem_foldl_insertValue :
    ∀ (ws vs : List String) (v : String),
      v ∈ ws.foldl insertValue vs ↔ v ∈ vs ∨ v ∈ ws
  | [], vs, v => by simp
  | w :: ws, vs, v => by
    rw [List.foldl_cons, mem_foldl_insertValue ws (insertValue vs w) v,
      mem_insertValue]
    simp only [List.mem_cons]
    tauto

theorem setEntry_cons {n' n : String} {e' e : AttrSchemaEntry}
    {rest : List (String × AttrSchemaEntry)} :
    setEntry ((n', e') :: rest) n e =
      if n' = n then (n, e) :: rest else (n', e') :: setEntry rest n e := rfl

theorem lookup_cons {n' : String} {e' : AttrSchemaEntry}
    {rest : List (String × AttrSchemaEntry)} {n : String} :
    lookup ⟨(n', e') :: rest⟩ n =
      if n' = n then some e' else lookup ⟨rest⟩ n := by
  unfold lookup
  by_cases h : n' = n
  · rw [List.find?_cons_of_pos _ (by simp [h]), if_pos h]
    rfl
  · rw [List.find?_cons_of_neg _ (by simp [h]), if_neg h]

theorem lookup_eq_none :
    ∀ {m : List (String × AttrSchemaEntry)} {n : String},
      lookup ⟨m⟩ n = none ↔ ∀ p ∈ m, p.1 ≠ n
  | [], n => by
    constructor
    · intro _ p hp; cases hp
    · intro _; rfl
  | (n', e') :: rest, n => by
    rw [lookup_cons]
    split_ifs with h
    · constructor
      · intro hsome; cases hsome
      · intro hall
        exact absurd h (hall (n', e') (List.mem_cons_self _ _))
    · rw [lookup_eq_none (m := rest)]
      constructor
      · intro hall p hp
        rcases List.mem_cons.mp hp with rfl | hp
        · exact h
        · exact hall p hp
      · intro hall p hp
        exact hall p (List.mem_cons_of_mem _ hp)

theorem lookup_mem :
    ∀ {m : List (String × AttrSchemaEntry)} {n : String} {e : AttrSchemaEntry},
      lookup ⟨m⟩ n = some e → (n, e) ∈ m
  | [], _, e, h => by cases h
  | (n', e') :: rest, n, e, h => by
    rw [lookup_cons] at h
    split_ifs at h with hn
    · cases h
      subst hn
      exact List.mem_cons_self _ _
    · exact List.mem_cons_of_mem _ (lookup_mem h)

theorem lookup_of_mem :
    ∀ {m : List (String × AttrSchemaEntry)}, (m.map Prod.fst).Nodup →
      ∀ {n : String} {e : AttrSchemaEntry}, (n, e) ∈ m → lookup ⟨m⟩ n = some e
  | [], _, n, e, h => by cases h
  | (n', e') :: rest, hw, n, e, h => by
    rw [List.map_cons, List.nodup_cons] at hw
    rw [lookup_cons]
    rcases List.mem_cons.mp h with heq | hmem
    · cases heq
      rw [if_pos rfl]
    · rw [if_neg ?_]
      · exact lookup_of_mem hw.2 hmem
      · intro hEq
        subst hEq
        exact hw.1 (List.mem_map.mpr ⟨(n', e), hmem, rfl⟩)

theorem setEntry_keys :
    ∀ (m : List (String × AttrSchemaEntry)) (n : String) (e : AttrSchemaEntry),
      (setEntry m n e).map Prod.fst =
        if n ∈ m.map Prod.fst then m.map Prod.fst else m.map Prod.fst ++ [n]
  | [], n, e => by simp [setEntry]
  | (n', e') :: rest, n, e => by
    rw [setEntry_cons]
    by_cases h : n' = n
    · subst h
      rw [if_pos rfl, List.map_cons, List.map_cons,
        if_pos (List.mem_cons_self _ _)]
    · have hnn : ¬ (n = n') := fun hEq => h hEq.symm
      rw [if_neg h, List.map_cons, List.map_cons, setEntry_keys rest n e]
      by_cases h2 : n ∈ rest.map Prod.fst
      · rw [if_pos h2, if_pos (List.mem_cons_of_mem _ h2)]
      · rw [if_neg h2, if_neg (by
          intro hmem
          rcases List.mem_cons.mp hmem with hEq | hmem'
          · exact hnn hEq
          · exact h2 hmem')]
        rfl

theorem mem_setEntry :
    ∀ {m : List (String × AttrSchemaEntry)}, (m.map Prod.fst).Nodup →
      ∀ (n : String) (e : AttrSchemaEntry) (q : String × AttrSchemaEntry),
        q ∈ setEntry m n e ↔ (q ∈ m ∧ q.1 ≠ n) ∨ q = (n, e)
  | [], _, n, e, q => by simp [setEntry]
  | (n', e') :: rest, hw, n, e, q => by
    rw [List.map_cons, List.nodup_cons] at hw
    rw [setEntry_cons]
    by_cases h : n' = n
    · subst h
      rw [if_pos rfl]
      simp only [List.mem_cons]
      constructor
      · rintro (rfl | hq)
        · exact Or.inr rfl
        · exact Or.inl ⟨Or.inr hq,
            fun hEq => hw.1 (List.mem_map.mpr ⟨q, hq, hEq⟩)⟩
      · rintro (⟨rfl | hq, hne⟩ | rfl)
        · exact absurd rfl hne
        · exact Or.inr hq
        · exact Or.inl rfl
    · rw [if_neg h]
      simp only [List.mem_cons, mem_setEntry hw.2 n e q]
      constructor
      · rintro (rfl | ⟨hq, hne⟩ | rfl)
        · exact Or.inl ⟨Or.inl rfl, fun hEq => h hEq⟩
        · exact Or.inl ⟨Or.inr hq, hne⟩
        · exact Or.inr rfl
      · rintro (⟨rfl | hq, hne⟩ | rfl)
        · exact Or.inl rfl
        · exact Or.inr (Or.inl ⟨hq, hne⟩)
        · exact Or.inr (Or.inr rfl)

theorem mem_decls {fl : Bool} {s : AttrContainerSchema} {d : SchemaDecl} :
    d ∈ s.decls fl ↔
      ∃ p ∈ s.schema, d = SchemaDecl.attrDecl [] fl p.1 p.2.atype ∨
        ∃ v ∈ p.2.values, d = SchemaDecl.valueDecl [] fl p.1 v := by
  unfold decls
  simp only [List.mem_flatMap, List.mem_cons, List.mem_map]
  constructor
  · rintro ⟨p, hp, rfl | ⟨v, hv, rfl⟩⟩
    · exact ⟨p, hp, Or.inl rfl⟩
    · exact ⟨p, hp, Or.inr ⟨v, hv, rfl⟩⟩
  · rintro ⟨p, hp, rfl | ⟨v, hv, rfl⟩⟩
    · exact ⟨p, hp, Or.inl rfl⟩
    · exact ⟨p, hp, Or.inr ⟨v, hv, rfl⟩⟩

end AttrContainerSchema

end Eta

namespace Eta

namespace AttrContainerSchema

theorem mergeStep_none {x : AttrContainerSchema}
    {p : String × AttrSchemaEntry} (hlk : x.lookup p.1 = none) :
    mergeStep x p = Except.ok ⟨x.schema ++ [p]⟩ := by
  unfold mergeStep
  rw [hlk]

theorem mergeStep_some {x : AttrContainerSchema}
    {p : String × AttrSchemaEntry} {e₀ : AttrSchemaEntry}
    (hlk : x.lookup p.1 = some e₀) (ht : e₀.atype = p.2.atype) :
    mergeStep x p = Except.ok
      ⟨setEntry x.schema p.1 ⟨e₀.atype, p.2.values.foldl insertValue e₀.values⟩⟩ := by
  unfold mergeStep
  rw [hlk]
  exact if_neg (by rw [ht]; simp)

theorem mergeSchema_cons_none (x : AttrContainerSchema) (n : String)
    (e : AttrSchemaEntry) (rest : List (String × AttrSchemaEntry))
    (hlk : x.lookup n = none) :
    mergeSchema x ⟨(n, e) :: rest⟩ = mergeSchema ⟨x.schema ++ [(n, e)]⟩ ⟨rest⟩ := by
  unfold mergeSchema
  rw [List.foldlM_cons, mergeStep_none (p := (n, e)) hlk]
  rfl

theorem mergeSchema_cons_some (x : AttrContainerSchema) (n : String)
    (e : AttrSchemaEntry) (rest : List (String × AttrSchemaEntry))
    {e₀ : AttrSchemaEntry} (hlk : x.lookup n = some e₀)
    (ht : e₀.atype = e.atype) :
    mergeSchema x ⟨(n, e) :: rest⟩ =
      mergeSchema
        ⟨setEntry x.schema n ⟨e₀.atype, e.values.foldl insertValue e₀.values⟩⟩
        ⟨rest⟩ := by
  unfold mergeSchema
  rw [List.foldlM_cons, mergeStep_some (p := (n, e)) hlk ht]
  rfl

theorem mergeSchema_spec (fl : Bool) :
    ∀ (y : List (String × AttrSchemaEntry)) (x : AttrContainerSchema),
      wfACS x = true → (y.map Prod.fst).Nodup →
      (∀ (n : String) (e₁ e₂ : AttrSchemaEntry),
        (n, e₁) ∈ x.schema → (n, e₂) ∈ y → e₁.atype = e₂.atype) →
      ∃ m : AttrContainerSchema,
        mergeSchema x ⟨y⟩ = Except.ok m ∧ wfACS m = true ∧
          (∀ d, d ∈ m.decls fl ↔ d ∈ x.decls fl ∨ d ∈ decls fl ⟨y⟩)
  | [], x, hwx, _, _ => ⟨x, rfl, hwx, by simp [decls]⟩
  | (n, e) :: rest, x, hwx, hwy, hc => by
    rw [List.map_cons, List.nodup_cons] at hwy
    have hwx' := of_decide_eq_true hwx
    cases hlk : x.lookup n with
    | none =>
      rw [mergeSchema_cons_none x n e rest hlk]
      have hnin : ∀ p ∈ x.schema, p.1 ≠ n := lookup_eq_none.mp hlk
      have hwx2 : wfACS (⟨x.schema ++ [(n, e)]⟩ : AttrContainerSchema) = true := by
        apply decide_eq_true
        rw [List.map_append, List.map_singleton]
        rw [List.nodup_append]
        refine ⟨hwx', List.nodup_singleton n, ?_⟩
        intro a ha hb
        rw [List.mem_singleton] at hb
        obtain ⟨p, hp, hpe⟩ := List.mem_map.mp ha
        exact hnin p hp (by rw [hpe, hb])
      have hc2 : ∀ (n' : String) (e₁ e₂ : AttrSchemaEntry),
          (n', e₁) ∈ x.schema ++ [(n, e)] → (n', e₂) ∈ rest →
            e₁.atype = e₂.atype := by
        intro n' e₁ e₂ h1 h2
        rcases List.mem_append.mp h1 with h1 | h1
        · exact hc n' e₁ e₂ h1 (List.mem_cons_of_mem _ h2)
        · rw [List.mem_singleton] at h1
          cases h1
          exact absurd (List.mem_map.mpr ⟨(n, e₂), h2, rfl⟩) hwy.1
      obtain ⟨m, hm, hwm, hd⟩ :=
        mergeSchema_spec fl rest ⟨x.schema ++ [(n, e)]⟩ hwx2 hwy.2 hc2
      refine ⟨m, hm, hwm, ?_⟩
      intro d
      rw [hd d]
      have hsplit : d ∈ decls fl ⟨x.schema ++ [(n, e)]⟩ ↔
          d ∈ x.decls fl ∨ d ∈ decls fl ⟨[(n, e)]⟩ := by
        unfold decls
        rw [List.flatMap_append, List.mem_append]
      have hcons : d ∈ decls fl ⟨(n, e) :: rest⟩ ↔
          d ∈ decls fl ⟨[(n, e)]⟩ ∨ d ∈ decls fl ⟨rest⟩ := by
        unfold decls
        rw [show ((n, e) :: rest) = [(n, e)] ++ rest from rfl,
          List.flatMap_append, List.mem_append]
      rw [hsplit, hcons]
      tauto
    | some e₀ =>
      have hmem₀ : (n, e₀) ∈ x.schema := lookup_mem hlk
      have htype : e₀.atype = e.atype :=
        hc n e₀ e hmem₀ (List.mem_cons_self _ _)
      rw [mergeSchema_cons_some x n e rest hlk htype]
      have hkeys : (setEntry x.schema n
          ⟨e₀.atype, e.values.foldl insertValue e₀.values⟩).map Prod.fst =
          x.schema.map Prod.fst := by
        rw [setEntry_keys, if_pos (List.mem_map.mpr ⟨(n, e₀), hmem₀, rfl⟩)]
      have hwx2 : wfACS (⟨setEntry x.schema n
          ⟨e₀.atype, e.values.foldl insertValue e₀.values⟩⟩ :
          AttrContainerSchema) = true := by
        apply decide_eq_true
        rw [hkeys]
        exact hwx'
      have hmemset := mem_setEntry hwx' n
        ⟨e₀.atype, e.values.foldl insertValue e₀.values⟩
      have hc2 : ∀ (n' : String) (e₁ e₂ : AttrSchemaEntry),
          (n', e₁) ∈ setEntry x.schema n
            ⟨e₀.atype, e.values.foldl insertValue e₀.values⟩ →
          (n', e₂) ∈ rest → e₁.atype = e₂.atype := by
        intro n' e₁ e₂ h1 h2
        rcases (hmemset (n', e₁)).mp h1 with ⟨h1, _⟩ | h1
        · exact hc n' e₁ e₂ h1 (List.mem_cons_of_mem _ h2)
        · rw [Prod.mk.injEq] at h1
          obtain ⟨rfl, rfl⟩ := h1
          exact absurd (List.mem_map.mpr ⟨(n', e₂), h2, rfl⟩) hwy.1
      obtain ⟨m, hm, hwm, hd⟩ := mergeSchema_spec fl rest _ hwx2 hwy.2 hc2
      refine ⟨m, hm, hwm, ?_⟩
      intro d
      rw [hd d]
      have hcons : d ∈ decls fl ⟨(n, e) :: rest⟩ ↔
          d ∈ decls fl ⟨[(n, e)]⟩ ∨ d ∈ decls fl ⟨rest⟩ := by
        unfold decls
        rw [show ((n, e) :: rest) = [(n, e)] ++ rest from rfl,
          List.flatMap_append, List.mem_append]
      rw [hcons]
      have hset : d ∈ decls fl (⟨setEntry x.schema n
          ⟨e₀.atype, e.values.foldl insertValue e₀.values⟩⟩ :
          AttrContainerSchema) ↔
          (d ∈ x.decls fl ∨ d ∈ decls fl ⟨[(n, e)]⟩) := by
        rw [mem_decls, mem_decls]
        constructor
        · rintro ⟨p, hp, hform⟩
          rcases (hmemset p).mp hp with ⟨hp', _⟩ | rfl
          · exact Or.inl ⟨p, hp', hform⟩
          · rcases hform with rfl | ⟨v, hv, rfl⟩
            · exact Or.inl ⟨(n, e₀), hmem₀, Or.inl rfl⟩
            · rcases (mem_foldl_insertValue _ _ _).mp hv with hv | hv
              · exact Or.inl ⟨(n, e₀), hmem₀, Or.inr ⟨v, hv, rfl⟩⟩
              · refine Or.inr ?_
                rw [mem_decls]
                exact ⟨(n, e), List.mem_singleton.mpr rfl, Or.inr ⟨v, hv, rfl⟩⟩
        · rintro (⟨p, hp, hform⟩ | hin)
          · by_cases hpn : p.1 = n
            · have hpe : p = (n, e₀) := by
                obtain ⟨p1, p2⟩ := p
                simp only at hpn
                subst hpn
                have := lookup_of_mem hwx' hp
                rw [hlk] at this
                cases this
                rfl
              subst hpe
              refine ⟨(n, ⟨e₀.atype, e.values.foldl insertValue e₀.values⟩),
                (hmemset _).mpr (Or.inr rfl), ?_⟩
              rcases hform with rfl | ⟨v, hv, rfl⟩
              · exact Or.inl rfl
              · exact Or.inr ⟨v, (mem_foldl_insertValue _ _ _).mpr (Or.inl hv), rfl⟩
            · exact ⟨p, (hmemset p).mpr (Or.inl ⟨hp, hpn⟩), hform⟩
          · rw [mem_decls] at hin
            obtain ⟨p, hp, hform⟩ := hin
            rw [List.mem_singleton] at hp
            subst hp
            refine ⟨(n, ⟨e₀.atype, e.values.foldl insertValue e₀.values⟩),
              (hmemset _).mpr (Or.inr rfl), ?_⟩
            rcases hform with rfl | ⟨v, hv, rfl⟩
            · rw [htype]
              exact Or.inl rfl
            · exact Or.inr ⟨v, (mem_foldl_insertValue _ _ _).mpr (Or.inr hv), rfl⟩
      rw [hset]
      tauto

end AttrContainerSchema

/-! ### Helper lemmas for `merge_schema` (claim C9): object schemas -/

theorem compatible_push (l : Option String) (d₁ d₂ : SchemaDecl) :
    SchemaDecl.compatible (SchemaDecl.push l d₁) (SchemaDecl.push l d₂) =
      SchemaDecl.compatible d₁ d₂ := by
  cases d₁ <;> cases d₂ <;>
    simp [SchemaDecl.push, SchemaDecl.compatible, Prod.mk.injEq, List.cons.injEq]

theorem declsCompatible_iff {ds : List SchemaDecl} :
    declsCompatible ds = true ↔
      ∀ d₁ ∈ ds, ∀ d₂ ∈ ds, SchemaDecl.compatible d₁ d₂ = true := by
  simp [declsCompatible, List.all_eq_true]

theorem declsCompatible_subset {ds ds' : List SchemaDecl}
    (h : ∀ d ∈ ds', d ∈ ds) (hc : declsCompatible ds = true) :
    declsCompatible ds' = true := by
  rw [declsCompatible_iff] at hc ⊢
  intro d₁ h₁ d₂ h₂
  exact hc d₁ (h d₁ h₁) d₂ (h d₂ h₂)

theorem declsCompatible_unpush {l : Option String} {ds : List SchemaDecl}
    (h : declsCompatible (ds.map (SchemaDecl.push l)) = true) :
    declsCompatible ds = true := by
  rw [declsCompatible_iff] at h ⊢
  intro d₁ h₁ d₂ h₂
  have hp := h _ (List.mem_map.mpr ⟨d₁, h₁, rfl⟩) _ (List.mem_map.mpr ⟨d₂, h₂, rfl⟩)
  rwa [compatible_push] at hp

theorem declsOCS_nil : declsOCS [] = [] := by
  unfold declsOCS
  rfl

theorem declsOCS_cons (l : Option String) (c : ObjectSchema)
    (rest : List (Option String × ObjectSchema)) :
    declsOCS ((l, c) :: rest) =
      (SchemaDecl.labelDecl [l] :: (declsOS c).map (SchemaDecl.push l)) ++
        declsOCS rest := by
  conv_lhs => unfold declsOCS

theorem declsOS_mk (l : Option String) (a f : AttrContainerSchema)
    (ch : List (Option String × ObjectSchema)) :
    declsOS (.mk l a f ch) =
      AttrContainerSchema.decls false a ++ AttrContainerSchema.decls true f ++
        declsOCS ch := by
  conv_lhs => unfold declsOS

theorem declsOS_eq (s : ObjectSchema) :
    declsOS s =
      s.attrs.decls false ++ s.frames.decls true ++ declsOCS s.childObjects := by
  cases s
  rw [declsOS_mk]
  rfl

theorem wfOCS_nil : wfOCS [] = true := by
  unfold wfOCS
  rfl

theorem wfOCS_cons (l : Option String) (c : ObjectSchema)
    (rest : List (Option String × ObjectSchema)) :
    wfOCS ((l, c) :: rest) =
      (decide (c.label = l) && wfOS c &&
        rest.all (fun p => decide (p.1 ≠ l)) && wfOCS rest) := by
  conv_lhs => unfold wfOCS

theorem wfOS_mk (l : Option String) (a f : AttrContainerSchema)
    (ch : List (Option String × ObjectSchema)) :
    wfOS (.mk l a f ch) = (wfACS a && wfACS f && wfOCS ch) := by
  conv_lhs => unfold wfOS

theorem wfOS_eq (s : ObjectSchema) :
    wfOS s = (wfACS s.attrs && wfACS s.frames && wfOCS s.childObjects) := by
  cases s
  rw [wfOS_mk]
  rfl

theorem mem_declsOCS :
    ∀ {m : List (Option String × ObjectSchema)} {d : SchemaDecl},
      d ∈ declsOCS m ↔
        ∃ p ∈ m, d = SchemaDecl.labelDecl [p.1] ∨
          ∃ d' ∈ declsOS p.2, d = SchemaDecl.push p.1 d'
  | [], d => by simp [declsOCS_nil]
  | (l, c) :: rest, d => by
    rw [declsOCS_cons, List.mem_append, List.mem_cons,
      mem_declsOCS (m := rest)]
    constructor
    · rintro ((rfl | hmap) | ⟨p, hp, hform⟩)
      · exact ⟨(l, c), List.mem_cons_self _ _, Or.inl rfl⟩
      · obtain ⟨d', hd', rfl⟩ := List.mem_map.mp hmap
        exact ⟨(l, c), List.mem_cons_self _ _, Or.inr ⟨d', hd', rfl⟩⟩
      · exact ⟨p, List.mem_cons_of_mem _ hp, hform⟩
    · rintro ⟨p, hp, hform⟩
      rcases List.mem_cons.mp hp with rfl | hp
      · rcases hform with rfl | ⟨d', hd', rfl⟩
        · exact Or.inl (Or.inl rfl)
        · exact Or.inl (Or.inr (List.mem_map.mpr ⟨d', hd', rfl⟩))
      · exact Or.inr ⟨p, hp, hform⟩

theorem wfOCS_iff :
    ∀ {m : List (Option String × ObjectSchema)},
      wfOCS m = true ↔
        (∀ p ∈ m, p.2.label = p.1 ∧ wfOS p.2 = true) ∧
          (m.map Prod.fst).Nodup
  | [] => by simp [wfOCS_nil]
  | (l, c) :: rest => by
    rw [wfOCS_cons]
    simp only [Bool.and_eq_true, decide_eq_true_eq, List.all_eq_true,
      List.map_cons, List.nodup_cons, wfOCS_iff (m := rest), List.mem_cons]
    constructor
    · rintro ⟨⟨⟨hl, hc⟩, hne⟩, hall, hnd⟩
      refine ⟨?_, ?_, hnd⟩
      · rintro p (rfl | hp)
        · exact ⟨hl, hc⟩
        · exact hall p hp
      · intro hmem
        obtain ⟨p, hp, hpe⟩ := List.mem_map.mp hmem
        exact hne p hp hpe
    · rintro ⟨hall, hnin, hnd⟩
      refine ⟨⟨hall (l, c) (Or.inl rfl), ?_⟩, fun p hp => hall p (Or.inr hp), hnd⟩
      intro p hp hpe
      exact hnin (List.mem_map.mpr ⟨p, hp, hpe⟩)

theorem lookupLabel_eq_none {m : List (Option String × ObjectSchema)}
    {l : Option String} :
    lookupLabel m l = none ↔ ∀ p ∈ m, p.1 ≠ l := by
  unfold lookupLabel
  rw [Option.map_eq_none']
  simp [List.find?_eq_none]

theorem lookupLabel_mem {m : List (Option String × ObjectSchema)}
    {l : Option String} {v : ObjectSchema}
    (h : lookupLabel m l = some v) : (l, v) ∈ m := by
  unfold lookupLabel at h
  rcases hf : List.find? (fun p => decide (p.1 = l)) m with _ | p
  · rw [hf] at h
    cases h
  · rw [hf] at h
    have hpv : p.2 = v := by injection h
    have hm := List.mem_of_find?_eq_some hf
    have hl := List.find?_some hf
    rw [decide_eq_true_eq] at hl
    obtain ⟨p1, p2⟩ := p
    cases hl
    cases hpv
    exact hm

theorem lookupLabel_of_mem :
    ∀ {m : List (Option String × ObjectSchema)}, (m.map Prod.fst).Nodup →
      ∀ {l : Option String} {v : ObjectSchema},
        (l, v) ∈ m → lookupLabel m l = some v
  | [], _, l, v, h => by cases h
  | (l', v') :: rest, hw, l, v, h => by
    rw [List.map_cons, List.nodup_cons] at hw
    rcases List.mem_cons.mp h with heq | hmem
    · cases heq
      unfold lookupLabel
      rw [List.find?_cons_of_pos _ (by simp)]
      rfl
    · have hne : ¬ (l' = l) := by
        intro hEq
        subst hEq
        exact hw.1 (List.mem_map.mpr ⟨(l', v), hmem, rfl⟩)
      unfold lookupLabel
      rw [List.find?_cons_of_neg _ (by simpa using hne)]
      exact lookupLabel_of_mem hw.2 hmem

theorem setLabel_keys :
    ∀ (m : List (Option String × ObjectSchema)) (l : Option String)
      (v : ObjectSchema),
      (setLabel m l v).map Prod.fst =
        if l ∈ m.map Prod.fst then m.map Prod.fst else m.map Prod.fst ++ [l]
  | [], l, v => by simp [setLabel]
  | (l', v') :: rest, l, v => by
    rw [setLabel]
    by_cases h : l' = l
    · subst h
      rw [if_pos rfl, List.map_cons, List.map_cons,
        if_pos (List.mem_cons_self _ _)]
    · have hnn : ¬ (l = l') := fun hEq => h hEq.symm
      rw [if_neg h, List.map_cons, List.map_cons, setLabel_keys rest l v]
      by_cases h2 : l ∈ rest.map Prod.fst
      · rw [if_pos h2, if_pos (List.mem_cons_of_mem _ h2)]
      · rw [if_neg h2, if_neg (by
          intro hmem
          rcases List.mem_cons.mp hmem with hEq | hmem'
          · exact hnn hEq
          · exact h2 hmem')]
        rfl

theorem mem_setLabel :
    ∀ {m : List (Option String × ObjectSchema)}, (m.map Prod.fst).Nodup →
      ∀ (l : Option String) (v : ObjectSchema)
        (q : Option String × ObjectSchema),
        q ∈ setLabel m l v ↔ (q ∈ m ∧ q.1 ≠ l) ∨ q = (l, v)
  | [], _, l, v, q => by simp [setLabel]
  | (l', v') :: rest, hw, l, v, q => by
    rw [List.map_cons, List.nodup_cons] at hw
    rw [setLabel]
    by_cases h : l' = l
    · subst h
      rw [if_pos rfl]
      simp only [List.mem_cons]
      constructor
      · rintro (rfl | hq)
        · exact Or.inr rfl
        · exact Or.inl ⟨Or.inr hq,
            fun hEq => hw.1 (List.mem_map.mpr ⟨q, hq, hEq⟩)⟩
      · rintro (⟨rfl | hq, hne⟩ | rfl)
        · exact absurd rfl hne
        · exact Or.inr hq
        · exact Or.inl rfl
    · rw [if_neg h]
      simp only [List.mem_cons, mem_setLabel hw.2 l v q]
      constructor
      · rintro (rfl | ⟨hq, hne⟩ | rfl)
        · exact Or.inl ⟨Or.inl rfl, fun hEq => h hEq⟩
        · exact Or.inl ⟨Or.inr hq, hne⟩
        · exact Or.inr rfl
      · rintro (⟨rfl | hq, hne⟩ | rfl)
        · exact Or.inl rfl
        · exact Or.inr (Or.inl ⟨hq, hne⟩)
        · exact Or.inr (Or.inr rfl)

theorem wfOCS_setLabel {m : List (Option String × ObjectSchema)}
    {l : Option String} {v : ObjectSchema}
    (hw : wfOCS m = true) (hl : v.label = l) (hv : wfOS v = true) :
    wfOCS (setLabel m l v) = true := by
  rw [wfOCS_iff] at hw ⊢
  refine ⟨?_, ?_⟩
  · intro p hp
    rcases (mem_setLabel hw.2 l v p).mp hp with ⟨hp', _⟩ | rfl
    · exact hw.1 p hp'
    · exact ⟨hl, hv⟩
  · rw [setLabel_keys]
    split_ifs with h
    · exact hw.2
    · rw [List.nodup_append]
      refine ⟨hw.2, List.nodup_singleton l, ?_⟩
      intro x hx hx'
      rw [List.mem_singleton] at hx'
      subst hx'
      exact h hx

theorem emptySchema_label (l : Option String) :
    (ObjectSchema.emptySchema l).label = l := rfl

theorem wfOS_empty (l : Option String) :
    wfOS (ObjectSchema.emptySchema l) = true := by
  rw [ObjectSchema.emptySchema, wfOS_mk, wfOCS_nil]
  rfl

theorem declsOS_empty (l : Option String) :
    declsOS (ObjectSchema.emptySchema l) = [] := by
  rw [ObjectSchema.emptySchema, declsOS_mk, declsOCS_nil]
  rfl

theorem mergeChildren_nil (a : List (Option String × ObjectSchema)) :
    mergeChildren a [] = Except.ok a := by
  unfold mergeChildren
  rfl

theorem mergeChildren_cons_step {a : List (Option String × ObjectSchema)}
    {l : Option String} {bos : ObjectSchema}
    {rest : List (Option String × ObjectSchema)} {merged : ObjectSchema}
    (hm : mergeOS
      (match lookupLabel a l with
        | some aos => aos
        | none => ObjectSchema.emptySchema l) bos = Except.ok merged) :
    mergeChildren a ((l, bos) :: rest) =
      mergeChildren (setLabel a l merged) rest := by
  show (match mergeOS
      (match lookupLabel a l with
        | some aos => aos
        | none => ObjectSchema.emptySchema l) bos with
    | .error e => .error e
    | .ok merged => mergeChildren (setLabel a l merged) rest) =
      mergeChildren (setLabel a l merged) rest
  rw [hm]

theorem mergeOS_mk (a : ObjectSchema) (bl : Option String)
    (ba bf : AttrContainerSchema) (bch : List (Option String × ObjectSchema)) :
    mergeOS a (ObjectSchema.mk bl ba bf bch) =
      (if bl ≠ a.label then .error .objectSchemaErr
      else
        match a.attrs.mergeSchema ba with
        | .error e => .error e
        | .ok na =>
          match a.frames.mergeSchema bf with
          | .error e => .error e
          | .ok nf =>
            match mergeChildren a.childObjects bch with
            | .error e => .error e
            | .ok nc => .ok (ObjectSchema.mk a.label na nf nc)) := by
  unfold mergeOS
  rfl

theorem mergeSpec :
    ∀ n : ℕ,
      (∀ (b a : ObjectSchema), sizeOf b ≤ n → wfOS a = true → wfOS b = true →
        b.label = a.label →
        declsCompatible (declsOS a ++ declsOS b) = true →
        ∃ m, mergeOS a b = Except.ok m ∧ wfOS m = true ∧ m.label = a.label ∧
          ∀ d, d ∈ declsOS m ↔ d ∈ declsOS a ∨ d ∈ declsOS b) ∧
      (∀ (b a : List (Option String × ObjectSchema)), sizeOf b ≤ n →
        wfOCS a = true → wfOCS b = true →
        declsCompatible (declsOCS a ++ declsOCS b) = true →
        ∃ m, mergeChildren a b = Except.ok m ∧ wfOCS m = true ∧
          ∀ d, d ∈ declsOCS m ↔ d ∈ declsOCS a ∨ d ∈ declsOCS b) := by
  intro n
  induction n using Nat.strong_induction_on with
  | _ n IH =>
    constructor
    · rintro ⟨bl, ba, bf, bch⟩ a hsz hwa hwb hlab hcomp
      have hbl : bl = a.label := hlab
      rw [wfOS_mk, Bool.and_eq_true, Bool.and_eq_true] at hwb
      obtain ⟨⟨hwba, hwbf⟩, hwbch⟩ := hwb
      have hwa' := hwa
      rw [wfOS_eq, Bool.and_eq_true, Bool.and_eq_true] at hwa'
      obtain ⟨⟨hwaa, hwaf⟩, hwach⟩ := hwa'
      have hcompatIff := declsCompatible_iff.mp hcomp
      have hmemA : ∀ d, (d ∈ a.attrs.decls false ∨ d ∈ a.frames.decls true ∨
          d ∈ declsOCS a.childObjects) →
          d ∈ declsOS a ++ declsOS (ObjectSchema.mk bl ba bf bch) := by
        intro d hd
        apply List.mem_append_left
        rw [declsOS_eq, List.mem_append, List.mem_append]
        tauto
      have hmemB : ∀ d, (d ∈ ba.decls false ∨ d ∈ bf.decls true ∨
          d ∈ declsOCS bch) →
          d ∈ declsOS a ++ declsOS (ObjectSchema.mk bl ba bf bch) := by
        intro d hd
        apply List.mem_append_right
        rw [declsOS_mk, List.mem_append, List.mem_append]
        tauto
      have hca : ∀ (nm : String) (e₁ e₂ : AttrSchemaEntry),
          (nm, e₁) ∈ a.attrs.schema → (nm, e₂) ∈ ba.schema →
            e₁.atype = e₂.atype := by
        intro nm e₁ e₂ h₁ h₂
        have hd₁ : SchemaDecl.attrDecl [] false nm e₁.atype ∈ a.attrs.decls false :=
          AttrContainerSchema.mem_decls.mpr ⟨(nm, e₁), h₁, Or.inl rfl⟩
        have hd₂ : SchemaDecl.attrDecl [] false nm e₂.atype ∈ ba.decls false :=
          AttrContainerSchema.mem_decls.mpr ⟨(nm, e₂), h₂, Or.inl rfl⟩
        have hcc := hcompatIff _ (hmemA _ (Or.inl hd₁)) _ (hmemB _ (Or.inl hd₂))
        simp [SchemaDecl.compatible] at hcc
        exact hcc
      have hcf : ∀ (nm : String) (e₁ e₂ : AttrSchemaEntry),
          (nm, e₁) ∈ a.frames.schema → (nm, e₂) ∈ bf.schema →
            e₁.atype = e₂.atype := by
        intro nm e₁ e₂ h₁ h₂
        have hd₁ : SchemaDecl.attrDecl [] true nm e₁.atype ∈ a.frames.decls true :=
          AttrContainerSchema.mem_decls.mpr ⟨(nm, e₁), h₁, Or.inl rfl⟩
        have hd₂ : SchemaDecl.attrDecl [] true nm e₂.atype ∈ bf.decls true :=
          AttrContainerSchema.mem_decls.mpr ⟨(nm, e₂), h₂, Or.inl rfl⟩
        have hcc := hcompatIff _ (hmemA _ (Or.inr (Or.inl hd₁)))
          _ (hmemB _ (Or.inr (Or.inl hd₂)))
        simp [SchemaDecl.compatible] at hcc
        exact hcc
      obtain ⟨na, hna, hwna, hdna⟩ :=
        AttrContainerSchema.mergeSchema_spec false ba.schema a.attrs hwaa
          (of_decide_eq_true hwba) hca
      have hna' : a.attrs.mergeSchema ba = Except.ok na := hna
      obtain ⟨nf, hnf, hwnf, hdnf⟩ :=
        AttrContainerSchema.mergeSchema_spec true bf.schema a.frames hwaf
          (of_decide_eq_true hwbf) hcf
      have hnf' : a.frames.mergeSchema bf = Except.ok nf := hnf
      have hszch : sizeOf bch < n := by
        simp only [ObjectSchema.mk.sizeOf_spec] at hsz
        omega
      have hcompch :
          declsCompatible (declsOCS a.childObjects ++ declsOCS bch) = true := by
        apply declsCompatible_subset _ hcomp
        intro d hd
        rcases List.mem_append.mp hd with hd | hd
        · exact hmemA d (Or.inr (Or.inr hd))
        · exact hmemB d (Or.inr (Or.inr hd))
      obtain ⟨nc, hnc, hwnc, hdnc⟩ :=
        (IH (sizeOf bch) hszch).2 bch a.childObjects le_rfl hwach hwbch hcompch
      refine ⟨ObjectSchema.mk a.label na nf nc, ?_, ?_, rfl, ?_⟩
      · rw [mergeOS_mk]
        have hne : ¬ (bl ≠ a.label) := fun hne => hne hbl
        rw [if_neg hne, hna', hnf', hnc]
      · rw [wfOS_mk]
        simp [hwna, hwnf, hwnc]
      · intro d
        have h₁ : d ∈ na.decls false ↔
            d ∈ a.attrs.decls false ∨ d ∈ ba.decls false := hdna d
        have h₂ : d ∈ nf.decls true ↔
            d ∈ a.frames.decls true ∨ d ∈ bf.decls true := hdnf d
        have h₃ := hdnc d
        rw [declsOS_mk, declsOS_eq a, declsOS_mk]
        simp only [List.mem_append]
        constructor
        · rintro ((h | h) | h)
          · rcases h₁.mp h with h | h
            · exact Or.inl (Or.inl (Or.inl h))
            · exact Or.inr (Or.inl (Or.inl h))
          · rcases h₂.mp h with h | h
            · exact Or.inl (Or.inl (Or.inr h))
            · exact Or.inr (Or.inl (Or.inr h))
          · rcases h₃.mp h with h | h
            · exact Or.inl (Or.inr h)
            · exact Or.inr (Or.inr h)
        · rintro (((h | h) | h) | ((h | h) | h))
          · exact Or.inl (Or.inl (h₁.mpr (Or.inl h)))
          · exact Or.inl (Or.inr (h₂.mpr (Or.inl h)))
          · exact Or.inr (h₃.mpr (Or.inl h))
          · exact Or.inl (Or.inl (h₁.mpr (Or.inr h)))
          · exact Or.inl (Or.inr (h₂.mpr (Or.inr h)))
          · exact Or.inr (h₃.mpr (Or.inr h))
    · intro b a hsz hwa hwb hcomp
      rcases b with _ | ⟨⟨l, bos⟩, rest⟩
      · refine ⟨a, mergeChildren_nil a, hwa, fun d => ?_⟩
        rw [declsOCS_nil]
        simp
      · rw [wfOCS_cons, Bool.and_eq_true, Bool.and_eq_true,
          Bool.and_eq_true] at hwb
        obtain ⟨⟨⟨hblabel, hwbos⟩, _⟩, hwrest⟩ := hwb
        rw [decide_eq_true_eq] at hblabel
        have hnda : (a.map Prod.fst).Nodup := (wfOCS_iff.mp hwa).2
        have hsz_bos : sizeOf bos < n := by
          simp only [List.cons.sizeOf_spec, Prod.mk.sizeOf_spec] at hsz
          omega
        have hsz_rest : sizeOf rest < n := by
          simp only [List.cons.sizeOf_spec, Prod.mk.sizeOf_spec] at hsz
          omega
        have hpushbos : ∀ d' ∈ declsOS bos,
            SchemaDecl.push l d' ∈ declsOCS a ++ declsOCS ((l, bos) :: rest) := by
          intro d' hd'
          apply List.mem_append_right
          rw [declsOCS_cons]
          exact List.mem_append_left _
            (List.mem_cons_of_mem _ (List.mem_map.mpr ⟨d', hd', rfl⟩))
        have hlabmem : SchemaDecl.labelDecl [l] ∈ declsOCS ((l, bos) :: rest) := by
          rw [declsOCS_cons]
          exact List.mem_append_left _ (List.mem_cons_self _ _)
        have hrestmem : ∀ d ∈ declsOCS rest, d ∈ declsOCS ((l, bos) :: rest) := by
          intro d hd
          rw [declsOCS_cons]
          exact List.mem_append_right _ hd
        cases hlk : lookupLabel a l with
        | none =>
          have hcomp₀ : declsCompatible
              (declsOS (ObjectSchema.emptySchema l) ++ declsOS bos) = true := by
            rw [declsOS_empty, List.nil_append]
            apply declsCompatible_unpush (l := l)
            apply declsCompatible_subset _ hcomp
            intro d hd
            obtain ⟨d', hd', rfl⟩ := List.mem_map.mp hd
            exact hpushbos d' hd'
          obtain ⟨merged, hm, hwm, hml, hdm⟩ :=
            (IH (sizeOf bos) hsz_bos).1 bos (ObjectSchema.emptySchema l) le_rfl
              (wfOS_empty l) hwbos (by rw [emptySchema_label]; exact hblabel)
              hcomp₀
          have hml' : merged.label = l := by rw [hml, emptySchema_label]
          have hdm' : ∀ d', d' ∈ declsOS merged ↔ d' ∈ declsOS bos := by
            intro d'
            rw [hdm d', declsOS_empty]
            simp
          have hm' : mergeOS
              (match lookupLabel a l with
                | some aos => aos
                | none => ObjectSchema.emptySchema l) bos = Except.ok merged := by
            rw [hlk]
            exact hm
          have hwset : wfOCS (setLabel a l merged) = true :=
            wfOCS_setLabel hwa hml' hwm
          have hnotin : ∀ p ∈ a, p.1 ≠ l := lookupLabel_eq_none.mp hlk
          have hcomp₁ : declsCompatible
              (declsOCS (setLabel a l merged) ++ declsOCS rest) = true := by
            apply declsCompatible_subset _ hcomp
            intro d hd
            rcases List.mem_append.mp hd with hd | hd
            · obtain ⟨p, hp, hform⟩ := mem_declsOCS.mp hd
              rcases (mem_setLabel hnda l merged p).mp hp with ⟨hpa, _⟩ | rfl
              · exact List.mem_append_left _ (mem_declsOCS.mpr ⟨p, hpa, hform⟩)
              · rcases hform with rfl | ⟨d', hd', rfl⟩
                · exact List.mem_append_right _ hlabmem
                · exact hpushbos d' ((hdm' d').mp hd')
            · exact List.mem_append_right _ (hrestmem d hd)
          obtain ⟨mfin, hmfin, hwmfin, hdfin⟩ :=
            (IH (sizeOf rest) hsz_rest).2 rest (setLabel a l merged) le_rfl
              hwset hwrest hcomp₁
          refine ⟨mfin, ?_, hwmfin, ?_⟩
          · rw [mergeChildren_cons_step hm']
            exact hmfin
          · intro d
            rw [hdfin d]
            constructor
            · rintro (hd | hd)
              · obtain ⟨p, hp, hform⟩ := mem_declsOCS.mp hd
                rcases (mem_setLabel hnda l merged p).mp hp with ⟨hpa, _⟩ | rfl
                · exact Or.inl (mem_declsOCS.mpr ⟨p, hpa, hform⟩)
                · rcases hform with rfl | ⟨d', hd', rfl⟩
                  · exact Or.inr hlabmem
                  · refine Or.inr ?_
                    rw [declsOCS_cons]
                    exact List.mem_append_left _ (List.mem_cons_of_mem _
                      (List.mem_map.mpr ⟨d', (hdm' d').mp hd', rfl⟩))
              · exact Or.inr (hrestmem d hd)
            · rintro (hd | hd)
              · obtain ⟨p, hp, hform⟩ := mem_declsOCS.mp hd
                exact Or.inl (mem_declsOCS.mpr ⟨p,
                  (mem_setLabel hnda l merged p).mpr (Or.inl ⟨hp, hnotin p hp⟩),
                  hform⟩)
              · rw [declsOCS_cons, List.mem_append] at hd
                rcases hd with hd | hd
                · rcases List.mem_cons.mp hd with rfl | hd
                  · exact Or.inl (mem_declsOCS.mpr ⟨(l, merged),
                      (mem_setLabel hnda l merged _).mpr (Or.inr rfl),
                      Or.inl rfl⟩)
                  · obtain ⟨d', hd', rfl⟩ := List.mem_map.mp hd
                    exact Or.inl (mem_declsOCS.mpr ⟨(l, merged),
                      (mem_setLabel hnda l merged _).mpr (Or.inr rfl),
                      Or.inr ⟨d', (hdm' d').mpr hd', rfl⟩⟩)
                · exact Or.inr hd
        | some aos =>
          have hmema : (l, aos) ∈ a := lookupLabel_mem hlk
          have haos := (wfOCS_iff.mp hwa).1 (l, aos) hmema
          have haosl : aos.label = l := haos.1
          have hwaos : wfOS aos = true := haos.2
          have hpushaos : ∀ d' ∈ declsOS aos,
              SchemaDecl.push l d' ∈ declsOCS a ++ declsOCS ((l, bos) :: rest) := by
            intro d' hd'
            exact List.mem_append_left _
              (mem_declsOCS.mpr ⟨(l, aos), hmema, Or.inr ⟨d', hd', rfl⟩⟩)
          have hcomp₀ : declsCompatible (declsOS aos ++ declsOS bos) = true := by
            apply declsCompatible_unpush (l := l)
            apply declsCompatible_subset _ hcomp
            intro d hd
            obtain ⟨d', hd', rfl⟩ := List.mem_map.mp hd
            rcases List.mem_append.mp hd' with hd' | hd'
            · exact hpushaos d' hd'
            · exact hpushbos d' hd'
          obtain ⟨merged, hm, hwm, hml, hdm⟩ :=
            (IH (sizeOf bos) hsz_bos).1 bos aos le_rfl hwaos hwbos
              (by rw [haosl]; exact hblabel) hcomp₀
          have hml' : merged.label = l := by rw [hml, haosl]
          have hm' : mergeOS
              (match lookupLabel a l with
                | some aos => aos
                | none => ObjectSchema.emptySchema l) bos = Except.ok merged := by
            rw [hlk]
            exact hm
          have hwset : wfOCS (setLabel a l merged) = true :=
            wfOCS_setLabel hwa hml' hwm
          have hcomp₁ : declsCompatible
              (declsOCS (setLabel a l merged) ++ declsOCS rest) = true := by
            apply declsCompatible_subset _ hcomp
            intro d hd
            rcases List.mem_append.mp hd with hd | hd
            · obtain ⟨p, hp, hform⟩ := mem_declsOCS.mp hd
              rcases (mem_setLabel hnda l merged p).mp hp with ⟨hpa, _⟩ | rfl
              · exact List.mem_append_left _ (mem_declsOCS.mpr ⟨p, hpa, hform⟩)
              · rcases hform with rfl | ⟨d', hd', rfl⟩
                · exact List.mem_append_right _ hlabmem
                · rcases (hdm d').mp hd' with hda | hdb
                  · exact hpushaos d' hda
                  · exact hpushbos d' hdb
            · exact List.mem_append_right _ (hrestmem d hd)
          obtain ⟨mfin, hmfin, hwmfin, hdfin⟩ :=
            (IH (sizeOf rest) hsz_rest).2 rest (setLabel a l merged) le_rfl
              hwset hwrest hcomp₁
          refine ⟨mfin, ?_, hwmfin, ?_⟩
          · rw [mergeChildren_cons_step hm']
            exact hmfin
          · intro d
            rw [hdfin d]
            constructor
            · rintro (hd | hd)
              · obtain ⟨p, hp, hform⟩ := mem_declsOCS.mp hd
                rcases (mem_setLabel hnda l merged p).mp hp with ⟨hpa, _⟩ | rfl
                · exact Or.inl (mem_declsOCS.mpr ⟨p, hpa, hform⟩)
                · rcases hform with rfl | ⟨d', hd', rfl⟩
                  · exact Or.inr hlabmem
                  · rcases (hdm d').mp hd' with hda | hdb
                    · exact Or.inl (mem_declsOCS.mpr ⟨(l, aos), hmema,
                        Or.inr ⟨d', hda, rfl⟩⟩)
                    · refine Or.inr ?_
                      rw [declsOCS_cons]
                      exact List.mem_append_left _ (List.mem_cons_of_mem _
                        (List.mem_map.mpr ⟨d', hdb, rfl⟩))
              · exact Or.inr (hrestmem d hd)
            · rintro (hd | hd)
              · obtain ⟨p, hp, hform⟩ := mem_declsOCS.mp hd
                by_cases hpl : p.1 = l
                · have hpe : p = (l, aos) := by
                    obtain ⟨p1, p2⟩ := p
                    simp only at hpl
                    subst hpl
                    have hlp := lookupLabel_of_mem hnda hp
                    rw [hlk] at hlp
                    cases hlp
                    rfl
                  subst hpe
                  rcases hform with rfl | ⟨d', hd', rfl⟩
                  · exact Or.inl (mem_declsOCS.mpr ⟨(l, merged),
                      (mem_setLabel hnda l merged _).mpr (Or.inr rfl),
                      Or.inl rfl⟩)
                  · exact Or.inl (mem_declsOCS.mpr ⟨(l, merged),
                      (mem_setLabel hnda l merged _).mpr (Or.inr rfl),
                      Or.inr ⟨d', (hdm d').mpr (Or.inl hd'), rfl⟩⟩)
                · exact Or.inl (mem_declsOCS.mpr ⟨p,
                    (mem_setLabel hnda l merged p).mpr (Or.inl ⟨hp, hpl⟩),
                    hform⟩)
              · rw [declsOCS_cons, List.mem_append] at hd
                rcases hd with hd | hd
                · rcases List.mem_cons.mp hd with rfl | hd
                  · exact Or.inl (mem_declsOCS.mpr ⟨(l, merged),
                      (mem_setLabel hnda l merged _).mpr (Or.inr rfl),
                      Or.inl rfl⟩)
                  · obtain ⟨d', hd', rfl⟩ := List.mem_map.mp hd
                    exact Or.inl (mem_declsOCS.mpr ⟨(l, merged),
                      (mem_setLabel hnda l merged _).mpr (Or.inr rfl),
                      Or.inr ⟨d', (hdm d').mpr (Or.inr hd'), rfl⟩⟩)
                · exact Or.inr hd

end Eta

namespace Eta

theorem OCS_mergeSchema_spec (a b : ObjectContainerSchema)
    (hwa : wfOCS a.schema = true) (hwb : wfOCS b.schema = true)
    (hcomp : declsCompatible (declsOCS a.schema ++ declsOCS b.schema) = true) :
    ∃ m, a.mergeSchema b = Except.ok m ∧ wfOCS m.schema = true ∧
      ∀ d, d ∈ declsOCS m.schema ↔
        d ∈ declsOCS a.schema ∨ d ∈ declsOCS b.schema := by
  obtain ⟨m, hm, hw, hd⟩ :=
    (mergeSpec (sizeOf b.schema)).2 b.schema a.schema le_rfl hwa hwb hcomp
  refine ⟨⟨m⟩, ?_, hw, hd⟩
  unfold ObjectContainerSchema.mergeSchema
  rw [hm]

end Eta

/-! ### Claim C9 -/

/-- C9: `ObjectContainerSchema.merge_schema` is a commutative and associative
union over the per-label schema maps, for container schemas whose shared
labels have compatible per-label schemas: `a.merge_schema(b)` and
`b.merge_schema(a)` both succeed and produce equal schemas, and merging is
independent of grouping (`(a ∪ b) ∪ c` equals `a ∪ (b ∪ c)`).  Equality of
the results is Python's equality of the underlying unordered mappings and
value sets, read here as equality of declaration sets (`Eta.declsOCS`);
"compatible" is pairwise conflict-freedom of all declarations
(`Eta.declsCompatible`: no attribute is declared at the same path with two
different types), and the schemas are well-formed (`Eta.wfOCS`: each entry
is keyed by its own label and keys are unique), which holds for every
schema the library itself constructs. -/
theorem C9_merge_schema_comm_assoc (a b c : Eta.ObjectContainerSchema)
    (hwa : Eta.wfOCS a.schema = true) (hwb : Eta.wfOCS b.schema = true)
    (hwc : Eta.wfOCS c.schema = true)
    (hcomp : Eta.declsCompatible
      (Eta.declsOCS a.schema ++ Eta.declsOCS b.schema ++
        Eta.declsOCS c.schema) = true) :
    ∃ ab ba bc abc₁ abc₂ : Eta.ObjectContainerSchema,
      a.mergeSchema b = Except.ok ab ∧ b.mergeSchema a = Except.ok ba ∧
      (∀ d, d ∈ Eta.declsOCS ab.schema ↔ d ∈ Eta.declsOCS ba.schema) ∧
      b.mergeSchema c = Except.ok bc ∧
      ab.mergeSchema c = Except.ok abc₁ ∧ a.mergeSchema bc = Except.ok abc₂ ∧
      (∀ d, d ∈ Eta.declsOCS abc₁.schema ↔ d ∈ Eta.declsOCS abc₂.schema) := by
  have hmem : ∀ d, (d ∈ Eta.declsOCS a.schema ∨ d ∈ Eta.declsOCS b.schema ∨
      d ∈ Eta.declsOCS c.schema) →
      d ∈ Eta.declsOCS a.schema ++ Eta.declsOCS b.schema ++
        Eta.declsOCS c.schema := by
    intro d hd
    rw [List.mem_append, List.mem_append]
    tauto
  have hcompAB : Eta.declsCompatible
      (Eta.declsOCS a.schema ++ Eta.declsOCS b.schema) = true := by
    apply Eta.declsCompatible_subset _ hcomp
    intro d hd
    rw [List.mem_append] at hd
    exact hmem d (by tauto)
  have hcompBA : Eta.declsCompatible
      (Eta.declsOCS b.schema ++ Eta.declsOCS a.schema) = true := by
    apply Eta.declsCompatible_subset _ hcomp
    intro d hd
    rw [List.mem_append] at hd
    exact hmem d (by tauto)
  have hcompBC : Eta.declsCompatible
      (Eta.declsOCS b.schema ++ Eta.declsOCS c.schema) = true := by
    apply Eta.declsCompatible_subset _ hcomp
    intro d hd
    rw [List.mem_append] at hd
    exact hmem d (by tauto)
  obtain ⟨ab, hab, hwab, hdab⟩ := Eta.OCS_mergeSchema_spec a b hwa hwb hcompAB
  obtain ⟨ba, hba, hwba, hdba⟩ := Eta.OCS_mergeSchema_spec b a hwb hwa hcompBA
  obtain ⟨bc, hbc, hwbc, hdbc⟩ := Eta.OCS_mergeSchema_spec b c hwb hwc hcompBC
  have hcompABC : Eta.declsCompatible
      (Eta.declsOCS ab.schema ++ Eta.declsOCS c.schema) = true := by
    apply Eta.declsCompatible_subset _ hcomp
    intro d hd
    rw [List.mem_append] at hd
    rcases hd with hd | hd
    · rcases (hdab d).mp hd with hd | hd
      · exact hmem d (Or.inl hd)
      · exact hmem d (Or.inr (Or.inl hd))
    · exact hmem d (Or.inr (Or.inr hd))
  have hcompA_BC : Eta.declsCompatible
      (Eta.declsOCS a.schema ++ Eta.declsOCS bc.schema) = true := by
    apply Eta.declsCompatible_subset _ hcomp
    intro d hd
    rw [List.mem_append] at hd
    rcases hd with hd | hd
    · exact hmem d (Or.inl hd)
    · rcases (hdbc d).mp hd with hd | hd
      · exact hmem d (Or.inr (Or.inl hd))
      · exact hmem d (Or.inr (Or.inr hd))
  obtain ⟨abc₁, habc₁, hwabc₁, hdabc₁⟩ :=
    Eta.OCS_mergeSchema_spec ab c hwab hwc hcompABC
  obtain ⟨abc₂, habc₂, hwabc₂, hdabc₂⟩ :=
    Eta.OCS_mergeSchema_spec a bc hwa hwbc hcompA_BC
  refine ⟨ab, ba, bc, abc₁, abc₂, hab, hba, ?_, hbc, habc₁, habc₂, ?_⟩
  · intro d
    rw [hdab d, hdba d]
    tauto
  · intro d
    rw [hdabc₁ d, hdabc₂ d, hdab d, hdbc d]
    tauto

/-- Witness for C9 at concrete inputs: two schemas for a `"car"` label with
compatible object-level `color` attributes and one schema for a fresh
`"person"` label. -/
theorem C9_merge_schema_comm_assoc_witness :
    (Eta.wfOCS Eta.exampleOCS₁.schema = true ∧
      Eta.wfOCS Eta.exampleOCS₂.schema = true ∧
      Eta.wfOCS Eta.exampleOCS₃.schema = true ∧
      Eta.declsCompatible
        (Eta.declsOCS Eta.exampleOCS₁.schema ++
          Eta.declsOCS Eta.exampleOCS₂.schema ++
          Eta.declsOCS Eta.exampleOCS₃.schema) = true) ∧
    (∃ ab ba bc abc₁ abc₂ : Eta.ObjectContainerSchema,
      Eta.exampleOCS₁.mergeSchema Eta.exampleOCS₂ = Except.ok ab ∧
      Eta.exampleOCS₂.mergeSchema Eta.exampleOCS₁ = Except.ok ba ∧
      (∀ d, d ∈ Eta.declsOCS ab.schema ↔ d ∈ Eta.declsOCS ba.schema) ∧
      Eta.exampleOCS₂.mergeSchema Eta.exampleOCS₃ = Except.ok bc ∧
      ab.mergeSchema Eta.exampleOCS₃ = Except.ok abc₁ ∧
      Eta.exampleOCS₁.mergeSchema bc = Except.ok abc₂ ∧
      (∀ d, d ∈ Eta.declsOCS abc₁.schema ↔ d ∈ Eta.declsOCS abc₂.schema)) :=
  ⟨⟨by
      rw [Eta.exampleOCS₁, Eta.wfOCS_cons, Eta.wfOS_mk, Eta.wfOCS_nil]
      decide,
    by
      rw [Eta.exampleOCS₂, Eta.wfOCS_cons, Eta.wfOS_mk, Eta.wfOCS_nil]
      decide,
    by
      rw [Eta.exampleOCS₃, Eta.wfOCS_cons, Eta.wfOS_mk, Eta.wfOCS_nil]
      decide,
    by
      rw [Eta.exampleOCS₁, Eta.exampleOCS₂, Eta.exampleOCS₃,
        Eta.declsOCS_cons, Eta.declsOS_mk, Eta.declsOCS_nil]
      decide⟩,
   C9_merge_schema_comm_assoc Eta.exampleOCS₁ Eta.exampleOCS₂ Eta.exampleOCS₃
    (by
      rw [Eta.exampleOCS₁, Eta.wfOCS_cons, Eta.wfOS_mk, Eta.wfOCS_nil]
      decide)
    (by
      rw [Eta.exampleOCS₂, Eta.wfOCS_cons, Eta.wfOS_mk, Eta.wfOCS_nil]
      decide)
    (by
      rw [Eta.exampleOCS₃, Eta.wfOCS_cons, Eta.wfOS_mk, Eta.wfOCS_nil]
      decide)
    (by
      rw [Eta.exampleOCS₁, Eta.exampleOCS₂, Eta.exampleOCS₃,
        Eta.declsOCS_cons, Eta.declsOS_mk, Eta.declsOCS_nil]
      decide)⟩
